import Mathlib

/-!
# sid: sidereal time from the command line

A shallow embedding of `sid.go` (package `main` of `robpike.io/sid`).

Conventions of the embedding:

* A `float64` value is the rational number it denotes (`ℚ`); infinities and
  NaN are not values of the embedding. `f64` rounds a rational to the nearest
  `float64` (ties to even). The Julian date, the numbers scanned from the sky
  file and the decomposition `hms64` are computed with that rounding, one
  rounding per floating-point operation of the source (no fused
  multiply-add).
* The angle pipeline `theta`, `hourAngle`, `hms` is the same sequence of
  statements over exact arithmetic, without the roundings; the statements
  about the range of the fields are made there.
* `int`/`int64` values are integers (`ℤ`); where the library code relies on
  machine wrap-around (`time.Date`), the reduction modulo `2^64` is explicit.
* The process is a state (`Proc`: what was written to standard output and to
  standard error) threaded through the statements of `main`; `log.Fatal`
  ends the run with exit status 1.
* The environment of a run (`World`) is the file system seen by
  `ioutil.ReadFile` and the successive readings of `time.Now().Unix()`.
-/

namespace Sid

/-! ## Numeric primitives of the Go runtime and of package `math` -/

/-- Go's conversion `int(x)` of a floating-point value: the fractional part
is discarded (truncation toward zero). -/
def goInt (x : ℚ) : ℤ := if 0 ≤ x then ⌊x⌋ else ⌈x⌉

/-- The function `math.Mod(x, y)`: the remainder of `x / y` whose sign agrees
with that of `x` and whose magnitude is below that of `y`, that is
`x - y * trunc(x / y)`. -/
def mathMod (x y : ℚ) : ℚ := x - y * (goInt (x / y) : ℚ)

/-- Rounding of a non-negative rational to the nearest integer, ties to the
even one. -/
def roundHalfEven (y : ℚ) : ℕ :=
  let f := ⌊y⌋.toNat
  let d := y - (f : ℚ)
  if d < 1 / 2 then f
  else if 1 / 2 < d then f + 1
  else if f % 2 = 0 then f else f + 1

/-! ## Binary64 arithmetic

A `float64` value is the rational number it denotes. Every floating-point
operation of the source yields the exact result rounded by `f64`. -/

/-- Rounding to the nearest `float64` value, ties to the even significand
(IEEE 754 binary64: 53 significant bits, least exponent -1022, so that the
spacing is `2 ^ (e - 52)` for `2 ^ e ≤ |y| < 2 ^ (e + 1)` and `2 ^ (-1074)`
below `2 ^ (-1022)`). The exponent is not bounded above here: a result of
magnitude `2 ^ 1024` or more is an overflow (an infinity in the machine). -/
def f64 (y : ℚ) : ℚ :=
  if y = 0 then 0
  else
    if y < 0 then
      -((roundHalfEven (|y| / 2 ^ (max (Int.log 2 |y|) (-1022) - 52)) : ℚ)
        * 2 ^ (max (Int.log 2 |y|) (-1022) - 52))
    else
      (roundHalfEven (|y| / 2 ^ (max (Int.log 2 |y|) (-1022) - 52)) : ℚ)
        * 2 ^ (max (Int.log 2 |y|) (-1022) - 52)

/-! ## Package `time`: `time.Date(...).Unix()` in UTC -/

def secondsPerMinute : ℤ := 60
def secondsPerHour : ℤ := 60 * secondsPerMinute
def secondsPerDay : ℤ := 24 * secondsPerHour
def daysPer400Years : ℤ := 365 * 400 + 97
def daysPer100Years : ℤ := 365 * 100 + 24
def daysPer4Years : ℤ := 365 * 4 + 1

/-- The year of the zero of the library's absolute time scale. -/
def absoluteZeroYear : ℤ := -292277022399

/-- The constant `(absoluteZeroYear - internalYear) * 365.2425 * secondsPerDay`
with `internalYear = 1`; `365.2425 * 400 = 146097`. -/
def absoluteToInternal : ℤ := (absoluteZeroYear - 1) / 400 * 146097 * secondsPerDay

def unixToInternal : ℤ :=
  (1969 * 365 + 1969 / 4 - 1969 / 100 + 1969 / 400) * secondsPerDay

def internalToUnix : ℤ := -unixToInternal

/-- Reduction of an integer to the range of `uint64`, modulo `2^64`. -/
def wrapU64 (x : ℤ) : ℤ := x % 18446744073709551616

/-- Reduction of an integer to the range of `int64`: the representative of
`x` modulo `2^64` in `[-2^63, 2^63)`. -/
def wrapI64 (x : ℤ) : ℤ :=
  (x + 9223372036854775808) % 18446744073709551616 - 9223372036854775808

/-- The helper `norm(hi, lo, base)` of package `time`: bring `lo` into
`[0, base)` and carry into `hi`. Go's `/` on integers truncates. -/
def norm (hi lo base : ℤ) : ℤ × ℤ :=
  let (hi, lo) :=
    if lo < 0 then
      let n := Int.tdiv (-lo - 1) base + 1
      (hi - n, lo + n * base)
    else (hi, lo)
  if lo ≥ base then
    let n := Int.tdiv lo base
    (hi + n, lo - n * base)
  else (hi, lo)

/-- The table `daysBefore` of package `time`: `daysBefore[m]` counts the days
of a non-leap year before month `m + 1`. -/
def daysBefore : List ℤ :=
  [0, 31, 31 + 28, 31 + 28 + 31, 31 + 28 + 31 + 30, 31 + 28 + 31 + 30 + 31,
   31 + 28 + 31 + 30 + 31 + 30, 31 + 28 + 31 + 30 + 31 + 30 + 31,
   31 + 28 + 31 + 30 + 31 + 30 + 31 + 31,
   31 + 28 + 31 + 30 + 31 + 30 + 31 + 31 + 30,
   31 + 28 + 31 + 30 + 31 + 30 + 31 + 31 + 30 + 31,
   31 + 28 + 31 + 30 + 31 + 30 + 31 + 31 + 30 + 31 + 30,
   31 + 28 + 31 + 30 + 31 + 30 + 31 + 31 + 30 + 31 + 30 + 31]

/-- The predicate `isLeap(year)` of package `time`; Go's `%` truncates. -/
def isLeap (year : ℤ) : Bool :=
  decide (Int.tmod year 4 = 0) &&
    (decide (Int.tmod year 100 ≠ 0) || decide (Int.tmod year 400 = 0))

/-- The value `time.Date(year, month, day, hour, min, sec, 0, time.UTC).Unix()`:
seconds since 1970-01-01T00:00:00 UTC in the proleptic Gregorian calendar. -/
def dateUnix (year month day hour min sec : ℤ) : ℤ :=
  -- Normalize month, overflowing into year.
  let (year, m) := norm year (month - 1) 12
  let month := m + 1
  -- Normalize sec, min, hour, overflowing into day.
  let (min, sec) := norm min sec 60
  let (hour, min) := norm hour min 60
  let (day, hour) := norm day hour 24
  let y := wrapU64 (year - absoluteZeroYear)
  -- Add in days from 400-year cycles.
  let n := y / 400
  let y := y - 400 * n
  let d := daysPer400Years * n
  -- Add in 100-year cycles.
  let n := y / 100
  let y := y - 100 * n
  let d := d + daysPer100Years * n
  -- Add in 4-year cycles.
  let n := y / 4
  let y := y - 4 * n
  let d := d + daysPer4Years * n
  -- Add in non-leap years.
  let d := d + 365 * y
  -- Add in days before this month.
  let d := d + (daysBefore.getD (month - 1).toNat 0)
  let d := if isLeap year && decide (month ≥ 3) then d + 1 else d
  -- Add in days before today.
  let d := wrapU64 (d + wrapU64 (day - 1))
  -- Add in time elapsed today.
  let abs := wrapU64 (d * secondsPerDay)
  let abs := wrapU64 (abs + wrapU64 (hour * secondsPerHour + min * secondsPerMinute + sec))
  wrapI64 (wrapI64 abs + (absoluteToInternal + internalToUnix))

/-! ## The computation of `main` -/

def L0 : ℚ := 99.967794687
def L1 : ℚ := 360.98564736628603
def L2 : ℚ := 2.907879E-13
def L3 : ℚ := -5.302E-22

/-- The instant `t` of `main`: `time.Date(-4713, 11, 24, 12, 0, 0, 0, time.UTC)`,
as Unix seconds. -/
def tJulian : ℤ := dateUnix (-4713) 11 24 12 0 0

/-- The instant `t2000` of `main`: `time.Date(2000, 1, 1, 0, 0, 0, 0, time.UTC)`,
as Unix seconds. -/
def t2000 : ℤ := dateUnix 2000 1 1 0 0 0

/-- The value `ΔJ := float64(time.Now().Unix()-t2000.Unix()) / 86400` for a
clock reading `now` (Unix seconds), over exact arithmetic. -/
def deltaJ (now : ℤ) : ℚ := ((now - t2000 : ℤ) : ℚ) / 86400

/-- The unreduced angle `θ := L0 + ΔJ*(L1+ΔJ*(L2+L3*ΔJ)) - lw`. -/
def theta (dJ lw : ℚ) : ℚ := L0 + dJ * (L1 + dJ * (L2 + L3 * dJ)) - lw

/-- The reduced angle in hours: `θ = math.Mod(θ, 360) / 15`. -/
def hourAngle (th : ℚ) : ℚ := mathMod th 360 / 15

/-- The decomposition of an hour value by the statements
`hours := int(θ); θ -= float64(hours); θ *= 60; minutes := int(θ);
θ -= float64(minutes); θ *= 60; seconds := int(θ)`, over exact arithmetic
(`hms64` below is the same with the `float64` roundings). -/
def hms (x : ℚ) : ℤ × ℤ × ℤ :=
  let hours := goInt x
  let x := x - (hours : ℚ)
  let x := x * 60
  let minutes := goInt x
  let x := x - (minutes : ℚ)
  let x := x * 60
  let seconds := goInt x
  (hours, minutes, seconds)

/-- The decomposition statements of `main` in `float64` arithmetic:
`hours := int(θ); θ -= float64(hours); θ *= 60; minutes := int(θ);
θ -= float64(minutes); θ *= 60; seconds := int(θ)`, each subtraction and
each product rounded to `float64` (the integers involved convert exactly). -/
def hms64 (x : ℚ) : ℤ × ℤ × ℤ :=
  let hours := goInt x
  let x := f64 (x - (hours : ℚ))
  let x := f64 (x * 60)
  let minutes := goInt x
  let x := f64 (x - (minutes : ℚ))
  let x := f64 (x * 60)
  let seconds := goInt x
  (hours, minutes, seconds)

/-- Hours, minutes and seconds computed by `main` from `ΔJ` and the west
longitude. -/
def sidereal (dJ lw : ℚ) : ℤ × ℤ × ℤ := hms (hourAngle (theta dJ lw))

/-- The difference `time.Now().Unix()-t.Unix()` of the Julian line, an
`int64` subtraction (it wraps around modulo `2^64`). -/
def julianSeconds (now : ℤ) : ℤ := wrapI64 (now - tJulian)

/-- The argument of the Julian line,
`float64(time.Now().Unix()-t.Unix())/86400`: the `int64` difference is
converted to `float64` and divided by 86400 in `float64`. -/
def julianDate (now : ℤ) : ℚ := f64 (f64 (julianSeconds now : ℚ) / 86400)

/-- The day count since the Julian epoch as a real quantity:
`(unix(T) - unix(-4713-11-24T12:00:00 UTC)) / 86400`, without any machine
arithmetic. -/
def julianDayCount (now : ℤ) : ℚ := ((now : ℚ) - (tJulian : ℚ)) / 86400

/-! ## Package `fmt`: the scanner behind `fmt.Sscanf(s, "%f %f %f", ...)`

The input is the sequence of runes still to be read; a scanning error (a
panic inside the library, recovered by `doScanf`) is `none`. -/

/-- The table `space` of `fmt/scan.go`, as closed ranges of code points. -/
def space : List (ℕ × ℕ) :=
  [(0x0009, 0x000d), (0x0020, 0x0020), (0x0085, 0x0085), (0x00a0, 0x00a0),
   (0x1680, 0x1680), (0x2000, 0x200a), (0x2028, 0x2029), (0x202f, 0x202f),
   (0x205f, 0x205f), (0x3000, 0x3000)]

/-- The loop of `isSpace` over the table. -/
def inRanges : List (ℕ × ℕ) → ℕ → Bool
  | [], _ => false
  | (lo, hi) :: rest, rx =>
    if rx < lo then false else if rx ≤ hi then true else inRanges rest rx

/-- The predicate `isSpace(r)` of `fmt/scan.go`. -/
def isSpace (r : Char) : Bool :=
  if r.toNat ≥ 65536 then false else inRanges space r.toNat

/-- The method `SkipSpace` with `nlIsSpace = false` (as `Sscanf` sets it):
spaces are skipped, a carriage return before a newline is skipped, and a
newline is the error "unexpected newline". -/
def skipSpace : List Char → Option (List Char)
  | [] => some []
  | r :: rest =>
    if r = '\r' && rest.head? = some '\n' then skipSpace rest
    else if r = '\n' then none
    else if !isSpace r then some (r :: rest)
    else skipSpace rest

/-- The loop `for isSpace(inputc) && inputc != '\n' { inputc = s.getRune() }`
of `advance`, followed by its `UnreadRune`. -/
def dropBlanks : List Char → List Char
  | [] => []
  | c :: rest => if isSpace c && c != '\n' then dropBlanks rest else c :: rest

/-- The method `advance` on the single blank that separates two verbs of the
format `"%f %f %f"` (no newline in the format, trailing space alone): the
input must be at its end or continue with a space that is not a newline. -/
def advanceSpace : List Char → Option (List Char)
  | [] => some []
  | c :: rest =>
    if !isSpace c then none
    else if c = '\n' then none
    else some (dropBlanks (c :: rest))

/-- The method `accept(ok)`: consume the next rune into the buffer when it
is one of `ok`. Returns whether it did, the buffer and the remaining input. -/
def accept (ok : List Char) (buf inp : List Char) : Bool × List Char × List Char :=
  match inp with
  | [] => (false, buf, [])
  | r :: rest => if r ∈ ok then (true, buf ++ [r], rest) else (false, buf, inp)

/-- The loop `for s.accept(ok) {}`. -/
def acceptMany (ok : List Char) (buf : List Char) : List Char → List Char × List Char
  | [] => (buf, [])
  | r :: rest => if r ∈ ok then acceptMany ok (buf ++ [r]) rest else (buf, r :: rest)

def sign : List Char := "+-".data
def period : List Char := ".".data
def decimalDigits : List Char := "0123456789".data
def hexadecimalDigits : List Char := "0123456789aAbBcCdDeEfF".data
def exponent : List Char := "eEpP".data

/-- The method `floatToken`: the longest prefix of the input that looks like
a floating-point number, and the input after it. -/
def floatToken (inp : List Char) : List Char × List Char :=
  -- NaN?
  let (a1, buf, inp) := accept "nN".data [] inp
  let (a2, buf, inp) := if a1 then accept "aA".data buf inp else (false, buf, inp)
  let (a3, buf, inp) := if a2 then accept "nN".data buf inp else (false, buf, inp)
  if a3 then (buf, inp) else
  -- leading sign?
  let (_, buf, inp) := accept sign buf inp
  -- Inf?
  let (b1, buf, inp) := accept "iI".data buf inp
  let (b2, buf, inp) := if b1 then accept "nN".data buf inp else (false, buf, inp)
  let (b3, buf, inp) := if b2 then accept "fF".data buf inp else (false, buf, inp)
  if b3 then (buf, inp) else
  let (c1, buf, inp) := accept "0".data buf inp
  let (c2, buf, inp) := if c1 then accept "xX".data buf inp else (false, buf, inp)
  let digits := if c2 then hexadecimalDigits ++ "_".data else decimalDigits ++ "_".data
  let exp := if c2 then "pP".data else exponent
  -- digits?
  let (buf, inp) := acceptMany digits buf inp
  -- decimal point?
  let (d1, buf, inp) := accept period buf inp
  -- fraction?
  let (buf, inp) := if d1 then acceptMany digits buf inp else (buf, inp)
  -- exponent?
  let (e1, buf, inp) := accept exp buf inp
  if e1 then
    -- leading sign?
    let (_, buf, inp) := accept sign buf inp
    -- decimal digits?
    acceptMany (decimalDigits ++ "_".data) buf inp
  else (buf, inp)

/-- Whether a rune is one of `'0'` to `'9'`. -/
def isDigit (c : Char) : Bool := decide ('0' ≤ c) && decide (c ≤ '9')

/-- The number written by a sequence of decimal digits. -/
def digitsVal (ds : List Char) : ℕ :=
  ds.foldl (fun acc c => 10 * acc + (c.toNat - '0'.toNat)) 0

/-- The longest prefix of decimal digits, and what follows it. -/
def spanDigits : List Char → List Char × List Char
  | [] => ([], [])
  | c :: rest =>
    if isDigit c then ((spanDigits rest).1.cons c, (spanDigits rest).2) else ([], c :: rest)

/-- An optional sign in front of digits, as `readFloat` reads it for the
mantissa and for the exponent: whether the sign is `-`, and what follows. -/
def optSign : List Char → Bool × List Char
  | '+' :: r => (false, r)
  | '-' :: r => (true, r)
  | r => (false, r)

/-- The exponent digits as `readFloat` accumulates them:
`if e < 10000 { e = e*10 + int(s[i]) - '0' }`. -/
def expDigitsVal (ds : List Char) : ℕ :=
  ds.foldl (fun e c => if e < 10000 then 10 * e + (c.toNat - '0'.toNat) else e) 0

/-- The optional exponent part of a decimal number: `e` or `E`, an optional
sign and at least one digit, up to the end of the token. -/
def parseExp : List Char → Option ℤ
  | [] => some 0
  | c :: rest =>
    if c = 'e' || c = 'E' then
      if (spanDigits (optSign rest).2).1 = [] || (spanDigits (optSign rest).2).2 != [] then none
      else if (optSign rest).1 then some (-(expDigitsVal (spanDigits (optSign rest).2).1 : ℤ))
      else some (expDigitsVal (spanDigits (optSign rest).2).1 : ℤ)
    else none

/-- A decimal floating-point number as `strconv` reads it: sign, mantissa
and decimal exponent. -/
structure Decimal where
  neg : Bool
  mantissa : ℕ
  exp : ℤ
deriving DecidableEq

/-- The number a `Decimal` denotes, `± mantissa * 10 ^ exp`. -/
def Decimal.toRat (d : Decimal) : ℚ :=
  if d.neg then -((d.mantissa : ℚ) * (10 : ℚ) ^ d.exp) else (d.mantissa : ℚ) * (10 : ℚ) ^ d.exp

/-- The function `readFloat` of `strconv` on a whole decimal token: an
optional sign, digits with at most one period and at least one digit, an
optional decimal exponent, and nothing after it. The other spellings that
`Sscanf` lets through to `strconv` (hexadecimal mantissa, binary exponent
`p`, underscores between digits, infinities and NaN) are outside the
embedding: they are `none` here, like a syntax error. -/
def readFloat (tok : List Char) : Option Decimal :=
  let neg := (optSign tok).1
  let ip := (spanDigits (optSign tok).2).1
  let s := (spanDigits (optSign tok).2).2
  let fp := match s with
    | '.' :: r => (spanDigits r).1
    | _ => []
  let s := match s with
    | '.' :: r => (spanDigits r).2
    | r => r
  if ip = [] && fp = [] then none
  else
    match parseExp s with
    | none => none
    | some e => some ⟨neg, digitsVal (ip ++ fp), e - (fp.length : ℤ)⟩

/-- The value `strconv.ParseFloat(tok, 64)` of a token: the `float64`
nearest to the number written (ties to even). A syntax error is `none`, and
so is the range error that `ParseFloat` returns when that nearest value is
an infinity; both end the scan. -/
def parseFloat (tok : List Char) : Option ℚ :=
  match readFloat tok with
  | none => none
  | some d => if (2 : ℚ) ^ 1024 ≤ |f64 d.toRat| then none else some (f64 d.toRat)

/-- The token of one `%f` of the format, as `doScanf` and `scanOne` reach it:
`SkipSpace` (the verb is not `c`), then `SkipSpace`, `notEOF` and
`floatToken`. Returns the token and the input after it. -/
def nextToken (inp : List Char) : Option (List Char × List Char) :=
  match skipSpace inp with
  | none => none
  | some inp =>
    match skipSpace inp with
    | none => none
    | some [] => none
    | some (c :: rest) => some (floatToken (c :: rest))

/-- One `%f` of the format: the token is converted by `convertFloat`, a
conversion error ends the scan. -/
def scanFloat (inp : List Char) : Option (ℚ × List Char) :=
  match nextToken inp with
  | none => none
  | some (tok, rest) =>
    match parseFloat tok with
    | none => none
    | some v => some (v, rest)

/-- The outcome of `fmt.Sscanf(s, "%f %f %f", &lat, &long, &elev)`: the count
`n` of operands stored, and the three variables (zero where not stored). -/
structure Scanned where
  n : ℕ
  lat : ℚ
  long : ℚ
  elev : ℚ
deriving DecidableEq

/-- The call `fmt.Sscanf(s, "%f %f %f", &lat, &long, &elev)`. Scanning stops
at the first error; the input after the third number is not looked at. -/
def sscanf3 (inp : List Char) : Scanned :=
  match scanFloat inp with
  | none => ⟨0, 0, 0, 0⟩
  | some (lat, inp) =>
    match (advanceSpace inp).bind scanFloat with
    | none => ⟨1, lat, 0, 0⟩
    | some (long, inp) =>
      match (advanceSpace inp).bind scanFloat with
      | none => ⟨2, lat, long, 0⟩
      | some (elev, _) => ⟨3, lat, long, elev⟩

/-! ## Package `fmt`: the two `Printf` formats of `main` -/

/-- The integer verb `%d` with a precision and no flag or width
(`fmtInteger`): at least `prec` digits, zero-filled on the left, after a
minus sign for a negative value; precision 0 with value 0 prints nothing. -/
def fmtInteger (prec : ℕ) (a : ℤ) : List Char :=
  if prec = 0 ∧ a = 0 then []
  else
    let digits := Nat.toDigits 10 a.natAbs
    let padded := List.replicate (prec - digits.length) '0' ++ digits
    if a < 0 then '-' :: padded else padded

/-- The text written by `fmt.Printf("%.02dh%.02dm%.02ds\n", hours, minutes, seconds)`:
after `%` the format has no flag and no width, and `.02` is the precision 2. -/
def sidLine (hours minutes seconds : ℤ) : String :=
  String.mk (fmtInteger 2 hours ++ ['h'] ++ fmtInteger 2 minutes ++ ['m']
    ++ fmtInteger 2 seconds ++ ['s', '\n'])

/-- The verb `%.2f` on a `float64` value: sign, integer part, a period and
two decimals, the exact value rounded to the nearest hundredth, ties to
even. -/
def fmtFloat2 (x : ℚ) : List Char :=
  let r := roundHalfEven (|x| * 100)
  let body := Nat.toDigits 10 (r / 100) ++ ['.'] ++ fmtInteger 2 ((r % 100 : ℕ) : ℤ)
  if x < 0 then '-' :: body else body

/-- The text written by `fmt.Printf("Julian date: %.2f\n", jd)`. -/
def julianLine (jd : ℚ) : String :=
  String.mk ("Julian date: ".data ++ fmtFloat2 jd ++ ['\n'])

/-! ## The process: flags, environment, output streams -/

/-- The flag variables after `flag.Parse()`: `-long` (default 0.0), `-sky`
(default `/usr/local/plan9/sky/here`) and `-julian` (default false). -/
structure Flags where
  wLong : ℚ := 0
  sky : String := "/usr/local/plan9/sky/here"
  julian : Bool := false

/-- The environment of one run: `readFile path` is the content returned by
`ioutil.ReadFile(path)`, or `none` when it returns an error; `now₁` and
`now₂` are the readings of `time.Now().Unix()` at the first and at the
second call in `main`. -/
structure World where
  readFile : String → Option String
  now₁ : ℤ
  now₂ : ℤ

/-- What the process has written so far, and the prefix of the standard
logger. -/
structure Proc where
  stdout : List String := []
  stderr : List String := []
  logPrefix : String := ""
deriving DecidableEq

/-- The result of running statements from a process state: they complete
with a value, or the process has exited with a status. -/
inductive Result (α : Type) where
  | ret (a : α) (p : Proc)
  | exit (status : ℕ) (p : Proc)

/-- Statements that run in the process and yield a value of type `α`. -/
def Run (α : Type) : Type := Proc → Result α

/-- Completing with a value, the process state unchanged. -/
def Run.pure {α : Type} (a : α) : Run α := fun p => Result.ret a p

/-- Sequencing: the second statement runs only when the first completes. -/
def Run.bind {α β : Type} (m : Run α) (f : α → Run β) : Run β := fun p =>
  match m p with
  | Result.ret a q => f a q
  | Result.exit s q => Result.exit s q

instance : Monad Run where
  pure := Run.pure
  bind := Run.bind

/-- The call `log.SetPrefix(prefix)`. -/
def logSetPrefix (pre : String) : Run Unit := fun p =>
  Result.ret () { p with logPrefix := pre }

/-- The call `log.Fatal(msg)` with the logger flags set to 0 (no date or time
header): the prefix and the message, ended by a newline, go to standard
error, then `os.Exit(1)`. -/
def logFatal {α : Type} (msg : String) : Run α := fun p =>
  Result.exit 1 { p with stderr := p.stderr ++ [p.logPrefix ++ msg ++ "\n"] }

/-- A `fmt.Printf` call that writes the text `s` to standard output. -/
def printf (s : String) : Run Unit := fun p =>
  Result.ret () { p with stdout := p.stdout ++ [s] }

/-- The function `westLongitude` of `sid.go`. -/
def westLongitude (fl : Flags) (w : World) : Run ℚ :=
  if fl.wLong ≠ 0 then
    Run.pure fl.wLong
  else
    match w.readFile fl.sky with
    | none => logFatal "can't read sky file; set -long for longitude"
    | some file =>
      let r := sscanf3 file.data
      if r.n = 3 then Run.pure r.long
      else logFatal "can't parse sky file; set -long for longitude"

/-- The function `main` of `sid.go`, after `flag.Parse()`. -/
def main (fl : Flags) (w : World) : Run Unit :=
  Run.bind (logSetPrefix "sid: ") fun _ =>
  let dJ := deltaJ w.now₁
  Run.bind (westLongitude fl w) fun lw =>
  let θ := theta dJ lw
  let (hours, minutes, seconds) := hms (hourAngle θ)
  Run.bind (printf (sidLine hours minutes seconds)) fun _ =>
  if fl.julian then printf (julianLine (julianDate w.now₂))
  else Run.pure ()

/-- What an observer sees of a finished run. -/
structure Outcome where
  status : ℕ
  stdout : List String
  stderr : List String
deriving DecidableEq

/-- A whole run of the program: `main` from the initial process state;
returning from `main` is exit status 0. -/
def runMain (fl : Flags) (w : World) : Outcome :=
  match main fl w {} with
  | Result.ret _ p => ⟨0, p.stdout, p.stderr⟩
  | Result.exit s p => ⟨s, p.stdout, p.stderr⟩

/-! ## Location records as text

The vocabulary in which the statements about the sky file are written: a
number in decimal notation and the text that spells it. -/

/-- A sign as written in front of a number or of an exponent: absent, `+`
or `-`. -/
inductive Sign where
  | absent
  | plus
  | minus
deriving DecidableEq

/-- The text of a written sign. -/
def Sign.text : Sign → List Char
  | Sign.absent => []
  | Sign.plus => ['+']
  | Sign.minus => ['-']

/-- Whether a written sign is `-`. -/
def Sign.neg : Sign → Bool
  | Sign.minus => true
  | _ => false

/-- The number written by a sequence of decimal digits, most significant
first. -/
def natOfDigits (ds : List (Fin 10)) : ℕ := ds.foldl (fun acc d => 10 * acc + d.val) 0

/-- The text of a sequence of decimal digits. -/
def digitsText (ds : List (Fin 10)) : List Char := ds.map fun d => Nat.digitChar d.val

/-- A number in decimal notation: an optional sign, digits of the integer
part, an optional period with the digits of the fraction, and an optional
exponent (marker `e`, or `E` when `capital`, an optional sign, digits). -/
structure Numeral where
  sign : Sign
  ip : List (Fin 10)
  fp : Option (List (Fin 10))
  ex : Option (Bool × Sign × List (Fin 10))

/-- The digits of the fraction of a numeral (none when no period is written). -/
def Numeral.fracDigits (n : Numeral) : List (Fin 10) := n.fp.getD []

/-- A numeral is well formed when it has at least one digit before its
exponent and, if the exponent is written, at least one exponent digit and
an exponent below 100000 in magnitude (`strconv` stops accumulating the
exponent once it has reached 10000). -/
def Numeral.WellFormed (n : Numeral) : Prop :=
  n.ip ++ n.fracDigits ≠ [] ∧ ∀ e ∈ n.ex, e.2.2 ≠ [] ∧ natOfDigits e.2.2 < 100000

/-- The text of the fraction part. -/
def Numeral.fracText (n : Numeral) : List Char :=
  match n.fp with
  | none => []
  | some f => '.' :: digitsText f

/-- The text of the exponent part. -/
def Numeral.expText (n : Numeral) : List Char :=
  match n.ex with
  | none => []
  | some (capital, s, ds) => (if capital then 'E' else 'e') :: (s.text ++ digitsText ds)

/-- The text that spells a numeral. -/
def Numeral.text (n : Numeral) : List Char :=
  n.sign.text ++ (digitsText n.ip ++ (n.fracText ++ n.expText))

/-- The decimal exponent a numeral writes (0 when none is written). -/
def Numeral.expValue (n : Numeral) : ℤ :=
  match n.ex with
  | none => 0
  | some (_, s, ds) => if s.neg then -(natOfDigits ds : ℤ) else (natOfDigits ds : ℤ)

/-- The rational number a numeral denotes. -/
def Numeral.value (n : Numeral) : ℚ :=
  let m : ℚ := ((natOfDigits n.ip : ℚ) + (natOfDigits n.fracDigits : ℚ) / 10 ^ n.fracDigits.length)
    * (10 : ℚ) ^ n.expValue
  if n.sign.neg then -m else m

/-- A numeral is in the `float64` range when the `float64` nearest to its
value is finite. -/
def Numeral.InRange (n : Numeral) : Prop := |f64 n.value| < 2 ^ 1024

/-- A blank: a space in the sense of `isSpace` other than the newline
(space, tab, carriage return, ...). -/
def isBlank (c : Char) : Bool := isSpace c && c != '\n'

/-- The text of a location record: three numerals, blanks before the first
and between them, and a remainder after the third. -/
def recordText (b0 : List Char) (lat : Numeral) (b1 : List Char) (long : Numeral)
    (b2 : List Char) (elev : Numeral) (rest : List Char) : List Char :=
  b0 ++ (lat.text ++ (b1 ++ (long.text ++ (b2 ++ (elev.text ++ rest)))))

/-! ## Vocabulary of the proofs about the scanner -/

/-- The next rune of `t`, if any, is none of `ok`. -/
def stop (ok t : List Char) : Prop := ∀ c ∈ t.head?, c ∉ ok

/-- No rune of `ok` is a space. -/
@[reducible] def noSpace (ok : List Char) : Prop := ∀ c ∈ ok, isSpace c = false

/-! ## Lemmas on truncation, the remainder and the decomposition -/

theorem goInt_of_nonneg {x : ℚ} (h : 0 ≤ x) : goInt x = ⌊x⌋ := by
  simp [goInt, h]

theorem goInt_of_nonpos {x : ℚ} (h : x ≤ 0) : goInt x = ⌈x⌉ := by
  rcases eq_or_lt_of_le h with h0 | hlt
  · subst h0; simp [goInt]
  · simp [goInt, not_le.mpr hlt]

theorem goInt_neg (x : ℚ) : goInt (-x) = -goInt x := by
  rcases le_total 0 x with h | h
  · rw [goInt_of_nonneg h, goInt_of_nonpos (by linarith), Int.ceil_neg]
  · rw [goInt_of_nonpos h, goInt_of_nonneg (by linarith), Int.floor_neg]

theorem goInt_eq_of_nonneg {x : ℚ} {n : ℤ} (h0 : 0 ≤ x) (h1 : (n : ℚ) ≤ x)
    (h2 : x < n + 1) : goInt x = n := by
  rw [goInt_of_nonneg h0, Int.floor_eq_iff]; exact ⟨h1, h2⟩

theorem goInt_eq_of_nonpos {x : ℚ} {n : ℤ} (h0 : x ≤ 0) (h1 : (n : ℚ) - 1 < x)
    (h2 : x ≤ n) : goInt x = n := by
  rw [goInt_of_nonpos h0, Int.ceil_eq_iff]; exact ⟨h1, h2⟩

theorem hms_nonneg_sum {x : ℚ} (hx : 0 ≤ x) :
    3600 * (hms x).1 + 60 * (hms x).2.1 + (hms x).2.2 = ⌊3600 * x⌋ := by
  have hf0 : 0 ≤ x - (⌊x⌋ : ℚ) := sub_nonneg.mpr (Int.floor_le x)
  have hm0 : 0 ≤ (x - (⌊x⌋ : ℚ)) * 60 := by positivity
  have hg0 : 0 ≤ (x - (⌊x⌋ : ℚ)) * 60 - (⌊(x - (⌊x⌋ : ℚ)) * 60⌋ : ℚ) :=
    sub_nonneg.mpr (Int.floor_le _)
  have hs0 : 0 ≤ ((x - (⌊x⌋ : ℚ)) * 60 - (⌊(x - (⌊x⌋ : ℚ)) * 60⌋ : ℚ)) * 60 := by positivity
  simp only [hms, goInt_of_nonneg hx, goInt_of_nonneg hm0, goInt_of_nonneg hs0]
  have e : ((x - (⌊x⌋ : ℚ)) * 60 - (⌊(x - (⌊x⌋ : ℚ)) * 60⌋ : ℚ)) * 60
      = 3600 * x - ((3600 * ⌊x⌋ + 60 * ⌊(x - (⌊x⌋ : ℚ)) * 60⌋ : ℤ) : ℚ) := by
    push_cast; ring
  rw [e, Int.floor_sub_int]; ring

theorem hms_neg (x : ℚ) :
    hms (-x) = (-(hms x).1, -(hms x).2.1, -(hms x).2.2) := by
  simp only [hms, goInt_neg]
  have e1 : (-x - ((-goInt x : ℤ) : ℚ)) * 60 = -((x - (goInt x : ℚ)) * 60) := by
    push_cast; ring
  rw [e1, goInt_neg]
  have e2 : (-((x - (goInt x : ℚ)) * 60) - ((-goInt ((x - (goInt x : ℚ)) * 60) : ℤ) : ℚ)) * 60
      = -(((x - (goInt x : ℚ)) * 60 - (goInt ((x - (goInt x : ℚ)) * 60) : ℚ)) * 60) := by
    push_cast; ring
  rw [e2, goInt_neg]

theorem hms_sum (x : ℚ) :
    3600 * (hms x).1 + 60 * (hms x).2.1 + (hms x).2.2 = goInt (3600 * x) := by
  rcases le_total 0 x with h | h
  · rw [hms_nonneg_sum h, goInt_of_nonneg (by positivity)]
  · have hx : 0 ≤ -x := by linarith
    have := hms_nonneg_sum hx
    rw [hms_neg] at this
    simp only at this
    have e : (3600 : ℚ) * x = -(3600 * -x) := by ring
    rw [e, goInt_neg, goInt_of_nonneg (by positivity)]
    linarith

theorem goInt_abs_le (x : ℚ) : |((goInt x : ℤ) : ℚ)| ≤ |x| ∧ |x - (goInt x : ℚ)| < 1 := by
  rcases le_total 0 x with h | h
  · rw [goInt_of_nonneg h]
    have h1 := Int.floor_le x
    have h2 := Int.lt_floor_add_one x
    have h3 : (0 : ℚ) ≤ (⌊x⌋ : ℚ) := by exact_mod_cast Int.floor_nonneg.mpr h
    rw [abs_of_nonneg h3, abs_of_nonneg h, abs_of_nonneg (by linarith)]
    constructor <;> linarith
  · rw [goInt_of_nonpos h]
    have h1 := Int.le_ceil x
    have h2 := Int.ceil_lt_add_one x
    have h3 : ((⌈x⌉ : ℤ) : ℚ) ≤ 0 := by exact_mod_cast Int.ceil_le.mpr (by simpa using h)
    rw [abs_of_nonpos h3, abs_of_nonpos h, abs_of_nonpos (by linarith)]
    constructor <;> linarith

theorem hms_nonneg_range {x : ℚ} (hx : 0 ≤ x) :
    (hms x).1 = ⌊x⌋ ∧ 0 ≤ (hms x).1 ∧ 0 ≤ (hms x).2.1 ∧ (hms x).2.1 ≤ 59 ∧
      0 ≤ (hms x).2.2 ∧ (hms x).2.2 ≤ 59 := by
  have hf0 : 0 ≤ x - (⌊x⌋ : ℚ) := sub_nonneg.mpr (Int.floor_le x)
  have hf1 : x - (⌊x⌋ : ℚ) < 1 := by linarith [Int.lt_floor_add_one x]
  have hm0 : 0 ≤ (x - (⌊x⌋ : ℚ)) * 60 := by positivity
  have hg0 : 0 ≤ (x - (⌊x⌋ : ℚ)) * 60 - (⌊(x - (⌊x⌋ : ℚ)) * 60⌋ : ℚ) :=
    sub_nonneg.mpr (Int.floor_le _)
  have hg1 : (x - (⌊x⌋ : ℚ)) * 60 - (⌊(x - (⌊x⌋ : ℚ)) * 60⌋ : ℚ) < 1 := by
    linarith [Int.lt_floor_add_one ((x - (⌊x⌋ : ℚ)) * 60)]
  have hs0 : 0 ≤ ((x - (⌊x⌋ : ℚ)) * 60 - (⌊(x - (⌊x⌋ : ℚ)) * 60⌋ : ℚ)) * 60 := by positivity
  simp only [hms, goInt_of_nonneg hx, goInt_of_nonneg hm0, goInt_of_nonneg hs0]
  refine ⟨trivial, Int.floor_nonneg.mpr hx, Int.floor_nonneg.mpr hm0, ?_,
    Int.floor_nonneg.mpr hs0, ?_⟩
  · have : ⌊(x - (⌊x⌋ : ℚ)) * 60⌋ < 60 := Int.floor_lt.mpr (by push_cast; linarith)
    omega
  · have : ⌊((x - (⌊x⌋ : ℚ)) * 60 - (⌊(x - (⌊x⌋ : ℚ)) * 60⌋ : ℚ)) * 60⌋ < 60 :=
      Int.floor_lt.mpr (by push_cast; linarith)
    omega

theorem hms_abs_le (x : ℚ) : |(hms x).2.1| ≤ 59 ∧ |(hms x).2.2| ≤ 59 := by
  rcases le_total 0 x with h | h
  · obtain ⟨-, -, a, b, c, d⟩ := hms_nonneg_range h
    rw [abs_of_nonneg a, abs_of_nonneg c]; exact ⟨b, d⟩
  · have hx : 0 ≤ -x := by linarith
    obtain ⟨-, -, a, b, c, d⟩ := hms_nonneg_range hx
    rw [hms_neg] at a b c d
    simp only at a b c d
    constructor <;> rw [abs_le] <;> constructor <;> omega

theorem mathMod_nonneg {th : ℚ} (h : 0 ≤ th) :
    0 ≤ mathMod th 360 ∧ mathMod th 360 < 360 := by
  have hq : 0 ≤ th / 360 := by positivity
  simp only [mathMod, goInt_of_nonneg hq]
  have h1 := Int.floor_le (th / 360)
  have h2 := Int.lt_floor_add_one (th / 360)
  constructor
  · have : (⌊th / 360⌋ : ℚ) * 360 ≤ th := by
      rw [le_div_iff₀ (by norm_num)] at h1; exact h1
    linarith
  · have : th < ((⌊th / 360⌋ : ℚ) + 1) * 360 := by
      rw [div_lt_iff₀ (by norm_num)] at h2; exact h2
    linarith

theorem mathMod_neg (th : ℚ) : mathMod (-th) 360 = -mathMod th 360 := by
  simp only [mathMod, neg_div, goInt_neg]; push_cast; ring

theorem mathMod_nonpos {th : ℚ} (h : th ≤ 0) :
    -360 < mathMod th 360 ∧ mathMod th 360 ≤ 0 := by
  have := @mathMod_nonneg (-th) (by linarith)
  rw [mathMod_neg] at this
  constructor <;> linarith [this.1, this.2]

theorem hourAngle_range {th : ℚ} (h : 0 ≤ th) : 0 ≤ hourAngle th ∧ hourAngle th < 24 := by
  obtain ⟨a, b⟩ := mathMod_nonneg h
  unfold hourAngle
  constructor
  · positivity
  · rw [div_lt_iff₀ (by norm_num)]; linarith

/-- The ranges of hours, minutes and seconds when the unreduced angle is not negative. -/
theorem sidereal_range {dJ lw : ℚ} (h : 0 ≤ theta dJ lw) :
    0 ≤ (sidereal dJ lw).1 ∧ (sidereal dJ lw).1 ≤ 23 ∧
    0 ≤ (sidereal dJ lw).2.1 ∧ (sidereal dJ lw).2.1 ≤ 59 ∧
    0 ≤ (sidereal dJ lw).2.2 ∧ (sidereal dJ lw).2.2 ≤ 59 := by
  obtain ⟨a, b⟩ := hourAngle_range h
  obtain ⟨e, h0, m0, m1, s0, s1⟩ := hms_nonneg_range a
  unfold sidereal
  refine ⟨h0, ?_, m0, m1, s0, s1⟩
  rw [e]
  have : ⌊hourAngle (theta dJ lw)⌋ < 24 := Int.floor_lt.mpr (by push_cast; exact b)
  omega

theorem t2000_eq : t2000 = 946684800 := by decide

theorem tJulian_eq : tJulian = -210866760000 := by decide

theorem theta_nonneg {dJ lw : ℚ} (h1 : 1 / 4 ≤ dJ) (h2 : dJ ≤ 100000000000) (h3 : lw ≤ 180) :
    0 ≤ theta dJ lw := by
  have hd : 0 ≤ dJ := by linarith
  have hsq : dJ * dJ ≤ 100000000000 * 100000000000 := by nlinarith
  have e : theta dJ lw = L0 + L1 * dJ + L2 * (dJ * dJ) + L3 * (dJ * dJ) * dJ - lw := by
    unfold theta; ring
  rw [e]
  have k1 : 0 ≤ L2 * (dJ * dJ) := by
    have : (0 : ℚ) ≤ L2 := by norm_num [L2]
    positivity
  have k2 : -6 * dJ ≤ L3 * (dJ * dJ) * dJ := by
    have : -6 ≤ L3 * (dJ * dJ) := by
      have : L3 * (dJ * dJ) = -(5.302E-22 * (dJ * dJ)) := by norm_num [L3]
      rw [this]
      have : (5.302E-22 : ℚ) * (dJ * dJ) ≤ 5.302E-22 * (100000000000 * 100000000000) :=
        mul_le_mul_of_nonneg_left hsq (by norm_num)
      norm_num at this ⊢
      linarith
    nlinarith
  have k3 : (180 : ℚ) ≤ L0 + (L1 - 6) * dJ := by
    norm_num [L0, L1]; linarith
  linarith

theorem mathMod_small {th : ℚ} (h1 : -360 < th) (h2 : th < 360) : mathMod th 360 = th := by
  have e : goInt (th / 360) = 0 := by
    rcases le_total 0 th with h | h
    · apply goInt_eq_of_nonneg (by positivity)
      · push_cast; positivity
      · push_cast; rw [div_lt_iff₀ (by norm_num)]; linarith
    · apply goInt_eq_of_nonpos
      · exact div_nonpos_of_nonpos_of_nonneg h (by norm_num)
      · push_cast; rw [lt_div_iff₀ (by norm_num)]; linarith
      · push_cast; exact div_nonpos_of_nonpos_of_nonneg h (by norm_num)
  simp [mathMod, e]

theorem hms_eval_nonneg {x : ℚ} {h m s : ℤ} (hh : 0 ≤ h) (hm0 : 0 ≤ m) (hm1 : m ≤ 59)
    (hs0 : 0 ≤ s) (hs1 : s ≤ 59)
    (lo : ((3600 * h + 60 * m + s : ℤ) : ℚ) ≤ 3600 * x)
    (hi : 3600 * x < ((3600 * h + 60 * m + s : ℤ) : ℚ) + 1) : hms x = (h, m, s) := by
  have hh' : (0 : ℚ) ≤ h := by exact_mod_cast hh
  have hm0' : (0 : ℚ) ≤ m := by exact_mod_cast hm0
  have hm1' : (m : ℚ) ≤ 59 := by exact_mod_cast hm1
  have hs0' : (0 : ℚ) ≤ s := by exact_mod_cast hs0
  have hs1' : (s : ℚ) ≤ 59 := by exact_mod_cast hs1
  push_cast at lo hi
  have e1 : goInt x = h := goInt_eq_of_nonneg (by linarith) (by linarith) (by linarith)
  have e2 : goInt ((x - (h : ℚ)) * 60) = m :=
    goInt_eq_of_nonneg (by linarith) (by linarith) (by linarith)
  have e3 : goInt (((x - (h : ℚ)) * 60 - (m : ℚ)) * 60) = s :=
    goInt_eq_of_nonneg (by linarith) (by linarith) (by linarith)
  simp only [hms, e1, e2, e3]

theorem hms_eval_nonpos {x : ℚ} {h m s : ℤ} (hh : 0 ≤ h) (hm0 : 0 ≤ m) (hm1 : m ≤ 59)
    (hs0 : 0 ≤ s) (hs1 : s ≤ 59)
    (lo : ((3600 * h + 60 * m + s : ℤ) : ℚ) ≤ 3600 * -x)
    (hi : 3600 * -x < ((3600 * h + 60 * m + s : ℤ) : ℚ) + 1) : hms x = (-h, -m, -s) := by
  have := hms_eval_nonneg hh hm0 hm1 hs0 hs1 lo hi
  have k := hms_neg (-x)
  rw [neg_neg, this] at k
  exact k

theorem theta_zero (lw : ℚ) : theta 0 lw = L0 - lw := by
  unfold theta; ring

theorem deltaJ_t2000 : deltaJ 946684800 = 0 := by
  simp [deltaJ, t2000_eq]

theorem sidereal_0_0 : sidereal 0 0 = (6, 39, 52) := by
  have e : hourAngle (theta 0 0) = L0 / 15 := by
    rw [theta_zero, hourAngle, mathMod_small] <;> norm_num [L0]
  rw [sidereal, e]
  apply hms_eval_nonneg <;> norm_num [L0]

theorem sidereal_0_180 : sidereal 0 180 = (-5, -20, -7) := by
  have e : hourAngle (theta 0 180) = (L0 - 180) / 15 := by
    rw [theta_zero, hourAngle, mathMod_small] <;> norm_num [L0]
  rw [sidereal, e]
  exact hms_eval_nonpos (h := 5) (m := 20) (s := 7) (by norm_num) (by norm_num) (by norm_num)
    (by norm_num) (by norm_num) (by norm_num [L0]) (by norm_num [L0])

theorem sidereal_0_120 : sidereal 0 120 = (-1, -20, -7) := by
  have e : hourAngle (theta 0 120) = (L0 - 120) / 15 := by
    rw [theta_zero, hourAngle, mathMod_small] <;> norm_num [L0]
  rw [sidereal, e]
  exact hms_eval_nonpos (h := 1) (m := 20) (s := 7) (by norm_num) (by norm_num) (by norm_num)
    (by norm_num) (by norm_num) (by norm_num [L0]) (by norm_num [L0])

theorem fmtInteger_two_digits {a : ℤ} (h0 : 0 ≤ a) (h1 : a ≤ 99) :
    fmtInteger 2 a = [Nat.digitChar (a / 10).toNat, Nat.digitChar (a % 10).toNat] := by
  obtain ⟨n, rfl⟩ := Int.eq_ofNat_of_zero_le h0
  have hn : n ≤ 99 := by omega
  interval_cases n <;> rfl

theorem sscanf3_n_le (inp : List Char) : (sscanf3 inp).n ≤ 3 := by
  unfold sscanf3
  split
  · simp
  · split
    · simp
    · split <;> simp

theorem westLongitude_override {fl : Flags} (w : World) (p : Proc) (h : fl.wLong ≠ 0) :
    westLongitude fl w p = Result.ret fl.wLong p := by
  simp [westLongitude, h, Run.pure]

theorem westLongitude_unreadable {fl : Flags} {w : World} (p : Proc) (h : fl.wLong = 0)
    (hf : w.readFile fl.sky = none) :
    westLongitude fl w p = Result.exit 1
      { p with stderr := p.stderr ++
          [p.logPrefix ++ "can't read sky file; set -long for longitude" ++ "\n"] } := by
  simp [westLongitude, h, hf, logFatal]

theorem westLongitude_unparsable {fl : Flags} {w : World} (p : Proc) {file : String}
    (h : fl.wLong = 0) (hf : w.readFile fl.sky = some file) (hn : (sscanf3 file.data).n ≠ 3) :
    westLongitude fl w p = Result.exit 1
      { p with stderr := p.stderr ++
          [p.logPrefix ++ "can't parse sky file; set -long for longitude" ++ "\n"] } := by
  simp [westLongitude, h, hf, hn, logFatal]

theorem westLongitude_parsed {fl : Flags} {w : World} (p : Proc) {file : String}
    (h : fl.wLong = 0) (hf : w.readFile fl.sky = some file) (hn : (sscanf3 file.data).n = 3) :
    westLongitude fl w p = Result.ret (sscanf3 file.data).long p := by
  simp [westLongitude, h, hf, hn, Run.pure]

/-- The output of a run in which `westLongitude` returns `lw`. -/
theorem runMain_of_longitude {fl : Flags} {w : World} {lw : ℚ}
    (h : westLongitude fl w { logPrefix := "sid: " } = Result.ret lw { logPrefix := "sid: " }) :
    runMain fl w = ⟨0,
      sidLine (sidereal (deltaJ w.now₁) lw).1 (sidereal (deltaJ w.now₁) lw).2.1
          (sidereal (deltaJ w.now₁) lw).2.2 ::
        (if fl.julian then [julianLine (julianDate w.now₂)] else []), []⟩ := by
  cases hj : fl.julian <;>
    simp [runMain, main, Run.bind, Run.pure, logSetPrefix, printf, h, hj, sidereal]

/-- The output of a run in which `westLongitude` exits. -/
theorem runMain_of_exit {fl : Flags} {w : World} {s : ℕ} {q : Proc}
    (h : westLongitude fl w { logPrefix := "sid: " } = Result.exit s q) :
    runMain fl w = ⟨s, q.stdout, q.stderr⟩ := by
  simp [runMain, main, Run.bind, logSetPrefix, h]

/-! ## Lemmas on the scanner -/

theorem stop_nil (ok : List Char) : stop ok [] := by simp [stop]

theorem stop_cons {ok : List Char} {c : Char} {t : List Char} (h : c ∉ ok) : stop ok (c :: t) := by
  simpa [stop] using h

theorem stop_append {ok ds t : List Char} (h1 : ∀ c ∈ ds, c ∉ ok) (h2 : stop ok t) :
    stop ok (ds ++ t) := by
  cases ds with
  | nil => simpa using h2
  | cons d ds => exact stop_cons (h1 d (List.mem_cons_self _ _))

theorem accept_stop {ok t : List Char} (buf : List Char) (h : stop ok t) :
    accept ok buf t = (false, buf, t) := by
  cases t with
  | nil => rfl
  | cons c t =>
    have : c ∉ ok := h c (by simp)
    simp [accept, this]

theorem accept_head {ok : List Char} {c : Char} (buf t : List Char) (h : c ∈ ok) :
    accept ok buf (c :: t) = (true, buf ++ [c], t) := by
  simp [accept, h]

theorem acceptMany_append {ok : List Char} (ds : List Char) (buf t : List Char)
    (h1 : ∀ c ∈ ds, c ∈ ok) (h2 : stop ok t) :
    acceptMany ok buf (ds ++ t) = (buf ++ ds, t) := by
  induction ds generalizing buf with
  | nil =>
    cases t with
    | nil => simp [acceptMany]
    | cons c t =>
      have : c ∉ ok := h2 c (by simp)
      simp [acceptMany, this]
  | cons d ds ih =>
    have hd : d ∈ ok := h1 d (List.mem_cons_self _ _)
    have := ih (buf ++ [d]) (fun c hc => h1 c (List.mem_cons_of_mem _ hc))
    simp [acceptMany, hd, this]

theorem isDigit_mem {c : Char} (h : isDigit c = true) : c ∈ decimalDigits := by
  simp only [isDigit, Bool.and_eq_true, decide_eq_true_eq] at h
  obtain ⟨h1, h2⟩ := h
  have h1' : 48 ≤ c.toNat := h1
  have h2' : c.toNat ≤ 57 := h2
  rw [← Char.ofNat_toNat c]
  generalize c.toNat = n at h1' h2'
  interval_cases n <;> decide

theorem mem_isDigit {c : Char} (h : c ∈ decimalDigits) : isDigit c = true := by
  have : ∀ d ∈ decimalDigits, isDigit d = true := by decide
  exact this c h

theorem stop_of_space {ok rest : List Char} (h : noSpace ok)
    (hr : ∀ c ∈ rest.head?, isSpace c = true) : stop ok rest := by
  intro c hc hm
  have := h c hm
  rw [hr c hc] at this
  exact absurd this (by decide)

/-- The statements of `floatToken` from the base prefix to the end of the digits. -/
theorem token_digits (buf ip T : List Char) (hip : ∀ c ∈ ip, c ∈ decimalDigits)
    (s0 : stop "0".data T) (sx : stop "xX".data T) (sd : stop (decimalDigits ++ "_".data) T) :
    ∃ c1 b i, accept "0".data buf (ip ++ T) = (c1, b, i) ∧
      (if c1 = true then accept "xX".data b i else (false, b, i)) = (false, b, i) ∧
      acceptMany (decimalDigits ++ "_".data) b i = (buf ++ ip, T) := by
  have dig : ∀ c ∈ decimalDigits, c ∈ decimalDigits ++ "_".data := fun c h =>
    List.mem_append_left _ h
  by_cases h0 : ∃ ip', ip = '0' :: ip'
  · obtain ⟨ip', rfl⟩ := h0
    have hip' : ∀ c ∈ ip', c ∈ decimalDigits := fun c hc => hip c (List.mem_cons_of_mem _ hc)
    have sx' : stop "xX".data (ip' ++ T) :=
      stop_append (fun c hc => by
        have : ∀ d ∈ decimalDigits, d ∉ "xX".data := by decide
        exact this c (hip' c hc)) sx
    refine ⟨true, buf ++ ['0'], ip' ++ T, accept_head buf _ (by decide), ?_, ?_⟩
    · rw [if_pos rfl]; exact accept_stop _ sx'
    · rw [acceptMany_append ip' _ _ (fun c hc => dig c (hip' c hc)) sd]
      simp
  · refine ⟨false, buf, ip ++ T, accept_stop buf ?_, if_neg (by decide), ?_⟩
    · cases ip with
      | nil => simpa using s0
      | cons d ip' =>
        apply stop_cons
        intro hd
        have : d = '0' := by simpa using hd
        exact h0 ⟨ip', by rw [this]⟩
    · exact acceptMany_append ip _ _ (fun c hc => dig c (hip c hc)) sd

/-- The statements of `floatToken` for the decimal point and the fraction. -/
theorem token_fraction (buf fr U : List Char)
    (hfr : fr = [] ∨ ∃ fp, fr = '.' :: fp ∧ ∀ c ∈ fp, c ∈ decimalDigits)
    (sp : stop period U) (sd : stop (decimalDigits ++ "_".data) U) :
    ∃ d1 b i, accept period buf (fr ++ U) = (d1, b, i) ∧
      (if d1 = true then acceptMany (decimalDigits ++ "_".data) b i else (b, i)) =
        (buf ++ fr, U) := by
  rcases hfr with rfl | ⟨fp, rfl, hfp⟩
  · exact ⟨false, buf, U, accept_stop _ (by simpa using sp), by simp⟩
  · refine ⟨true, buf ++ ['.'], fp ++ U, accept_head _ _ (by decide), ?_⟩
    rw [if_pos rfl, acceptMany_append fp _ _ (fun c hc => List.mem_append_left _ (hfp c hc)) sd]
    simp

/-- The statements of `floatToken` for the exponent. -/
theorem token_exponent (buf ex rest : List Char)
    (hex : ex = [] ∨ ∃ em es ed, ex = em :: (es ++ ed) ∧ (em = 'e' ∨ em = 'E') ∧
      (es = [] ∨ es = ['+'] ∨ es = ['-']) ∧ ∀ c ∈ ed, c ∈ decimalDigits)
    (se : stop exponent rest) (ss : stop sign rest)
    (sd : stop (decimalDigits ++ "_".data) rest) :
    ∃ e1 b i, accept exponent buf (ex ++ rest) = (e1, b, i) ∧
      (e1 = false → (b, i) = (buf ++ ex, rest)) ∧
      (e1 = true → ∃ s b2 i2, accept sign b i = (s, b2, i2) ∧
        acceptMany (decimalDigits ++ "_".data) b2 i2 = (buf ++ ex, rest)) := by
  rcases hex with rfl | ⟨em, es, ed, rfl, hem, hes, hed⟩
  · exact ⟨false, buf, rest, accept_stop _ (by simpa using se), by simp, by simp⟩
  · have hm : em ∈ exponent := by rcases hem with rfl | rfl <;> decide
    refine ⟨true, buf ++ [em], es ++ (ed ++ rest), ?_, by simp, fun _ => ?_⟩
    · simpa using accept_head buf (es ++ (ed ++ rest)) hm
    · have hd := acceptMany_append ed (buf ++ [em] ++ es) rest
        (fun c hc => List.mem_append_left _ (hed c hc)) sd
      have e : buf ++ [em] ++ es ++ ed = buf ++ em :: (es ++ ed) := by simp
      rw [e] at hd
      refine ⟨es != [], buf ++ [em] ++ es, ed ++ rest, ?_, hd⟩
      rcases hes with rfl | rfl | rfl
      · simpa using accept_stop (buf ++ [em]) (stop_append (fun c hc => by
          have : ∀ d ∈ decimalDigits, d ∉ sign := by decide
          exact this c (hed c hc)) ss)
      · exact accept_head _ _ (by decide)
      · exact accept_head _ _ (by decide)

theorem floatToken_numeral (sg ip fr ex rest : List Char)
    (hsg : sg = [] ∨ sg = ['+'] ∨ sg = ['-'])
    (hip : ∀ c ∈ ip, c ∈ decimalDigits)
    (hfr : fr = [] ∨ ∃ fp, fr = '.' :: fp ∧ ∀ c ∈ fp, c ∈ decimalDigits)
    (hex : ex = [] ∨ ∃ em es ed, ex = em :: (es ++ ed) ∧ (em = 'e' ∨ em = 'E') ∧
      (es = [] ∨ es = ['+'] ∨ es = ['-']) ∧ ∀ c ∈ ed, c ∈ decimalDigits)
    (hrest : ∀ c ∈ rest.head?, isSpace c = true) :
    floatToken (sg ++ (ip ++ (fr ++ (ex ++ rest)))) = (sg ++ (ip ++ (fr ++ ex)), rest) := by
  -- what may follow each part never belongs to the sets tried at that point
  have sR : ∀ ok, noSpace ok → stop ok rest := fun ok h => stop_of_space h hrest
  have sU : ∀ ok, noSpace ok → 'e' ∉ ok → 'E' ∉ ok → stop ok (ex ++ rest) := by
    intro ok h he hE
    rcases hex with rfl | ⟨em, es, ed, rfl, hem, -, -⟩
    · simpa using sR ok h
    · rcases hem with rfl | rfl
      · exact stop_cons he
      · exact stop_cons hE
  have sT : ∀ ok, noSpace ok → 'e' ∉ ok → 'E' ∉ ok → '.' ∉ ok → stop ok (fr ++ (ex ++ rest)) := by
    intro ok h he hE hp
    rcases hfr with rfl | ⟨fp, rfl, -⟩
    · simpa using sU ok h he hE
    · exact stop_cons hp
  have sI : ∀ ok, noSpace ok → 'e' ∉ ok → 'E' ∉ ok → '.' ∉ ok → (∀ c ∈ decimalDigits, c ∉ ok) →
      stop ok (ip ++ (fr ++ (ex ++ rest))) := by
    intro ok h he hE hp hd
    exact stop_append (fun c hc => hd c (hip c hc)) (sT ok h he hE hp)
  -- NaN?
  have h1 : accept "nN".data [] (sg ++ (ip ++ (fr ++ (ex ++ rest)))) =
      (false, [], sg ++ (ip ++ (fr ++ (ex ++ rest)))) := by
    apply accept_stop
    rcases hsg with rfl | rfl | rfl
    · simpa using sI "nN".data (by decide) (by decide) (by decide) (by decide) (by decide)
    · exact stop_cons (by decide)
    · exact stop_cons (by decide)
  -- leading sign?
  have h2 : accept sign [] (sg ++ (ip ++ (fr ++ (ex ++ rest)))) =
      (sg != [], sg, ip ++ (fr ++ (ex ++ rest))) := by
    rcases hsg with rfl | rfl | rfl
    · exact accept_stop [] (by
        simpa using sI sign (by decide) (by decide) (by decide) (by decide) (by decide))
    · exact accept_head [] _ (by decide)
    · exact accept_head [] _ (by decide)
  -- Inf?
  have h3 := accept_stop sg (sI "iI".data (by decide) (by decide) (by decide) (by decide)
    (by decide))
  -- base prefix and digits
  obtain ⟨c1, b4, i4, h4a, h4b, h4c⟩ := token_digits sg ip (fr ++ (ex ++ rest)) hip
    (sT "0".data (by decide) (by decide) (by decide) (by decide))
    (sT "xX".data (by decide) (by decide) (by decide) (by decide))
    (sT (decimalDigits ++ "_".data) (by decide) (by decide) (by decide) (by decide))
  -- decimal point and fraction
  obtain ⟨d1, b5, i5, h5a, h5b⟩ := token_fraction (sg ++ ip) fr (ex ++ rest) hfr
    (sU period (by decide) (by decide) (by decide))
    (sU (decimalDigits ++ "_".data) (by decide) (by decide) (by decide))
  -- exponent
  obtain ⟨e1, b6, i6, h6a, h6b, h6c⟩ := token_exponent (sg ++ (ip ++ fr)) ex rest hex
    (sR exponent (by decide)) (sR sign (by decide)) (sR (decimalDigits ++ "_".data) (by decide))
  cases e1 with
  | false =>
    have h6 := h6b rfl
    simp only [Prod.mk.injEq] at h6
    obtain ⟨rfl, rfl⟩ := h6
    simp only [floatToken, h1, h2, h3, h4a, h4b, h4c, h5a, h5b, h6a, Bool.false_eq_true,
      ↓reduceIte, List.append_assoc]
  | true =>
    obtain ⟨s, b7, i7, h7a, h7b⟩ := h6c rfl
    simp only [floatToken, h1, h2, h3, h4a, h4b, h4c, h5a, h5b, h6a, h7a, h7b, Bool.false_eq_true,
      ↓reduceIte, List.append_assoc]

theorem digitChar_mem (d : Fin 10) : Nat.digitChar d.val ∈ decimalDigits := by
  revert d; decide

theorem digitChar_val (d : Fin 10) : (Nat.digitChar d.val).toNat - '0'.toNat = d.val := by
  revert d; decide

theorem digitsText_mem (ds : List (Fin 10)) : ∀ c ∈ digitsText ds, c ∈ decimalDigits := by
  intro c hc
  simp only [digitsText, List.mem_map] at hc
  obtain ⟨d, -, rfl⟩ := hc
  exact digitChar_mem d

theorem digitsVal_digitsText (ds : List (Fin 10)) : digitsVal (digitsText ds) = natOfDigits ds := by
  have gen : ∀ (ds : List (Fin 10)) (a : ℕ),
      List.foldl (fun acc c => 10 * acc + (c.toNat - '0'.toNat)) a (digitsText ds) =
        List.foldl (fun acc (d : Fin 10) => 10 * acc + d.val) a ds := by
    intro ds
    induction ds with
    | nil => intro a; rfl
    | cons d ds ih =>
      intro a
      simp only [digitsText, List.map_cons, List.foldl_cons] at ih ⊢
      rw [digitChar_val, ih]
  exact gen ds 0

theorem natOfDigits_append (a b : List (Fin 10)) :
    natOfDigits (a ++ b) = natOfDigits a * 10 ^ b.length + natOfDigits b := by
  have gen : ∀ (b : List (Fin 10)) (x : ℕ),
      List.foldl (fun acc (d : Fin 10) => 10 * acc + d.val) x b =
        x * 10 ^ b.length + List.foldl (fun acc (d : Fin 10) => 10 * acc + d.val) 0 b := by
    intro b
    induction b with
    | nil => intro x; simp
    | cons d b ih =>
      intro x
      simp only [List.foldl_cons, List.length_cons]
      rw [ih (10 * x + d.val), ih (10 * 0 + d.val)]
      ring
  simp only [natOfDigits, List.foldl_append]
  exact gen b _

theorem digitsText_append (a b : List (Fin 10)) :
    digitsText (a ++ b) = digitsText a ++ digitsText b := by
  simp [digitsText]

theorem digitsText_eq_nil {ds : List (Fin 10)} : digitsText ds = [] ↔ ds = [] := by
  simp [digitsText]

theorem spanDigits_append (ds t : List Char) (h1 : ∀ c ∈ ds, c ∈ decimalDigits)
    (h2 : stop decimalDigits t) : spanDigits (ds ++ t) = (ds, t) := by
  induction ds with
  | nil =>
    cases t with
    | nil => rfl
    | cons c t =>
      have : isDigit c = false := by
        cases h : isDigit c with
        | false => rfl
        | true => exact absurd (isDigit_mem h) (h2 c (by simp))
      simp [spanDigits, this]
  | cons d ds ih =>
    have hd : isDigit d = true := mem_isDigit (h1 d (List.mem_cons_self _ _))
    have := ih (fun c hc => h1 c (List.mem_cons_of_mem _ hc))
    simp [spanDigits, hd, this]

theorem optSign_text (s : Sign) (body : List Char) (h : stop sign body) :
    optSign (s.text ++ body) = (s.neg, body) := by
  cases s with
  | absent =>
    cases body with
    | nil => rfl
    | cons c t =>
      have hc : c ∉ sign := h c (by simp)
      have h1 : c ≠ '+' := fun e => hc (by rw [e]; decide)
      have h2 : c ≠ '-' := fun e => hc (by rw [e]; decide)
      simp only [Sign.text, List.nil_append, Sign.neg]
      unfold optSign
      split
      · next r heq => exact absurd (List.cons.inj heq).1 h1
      · next r heq => exact absurd (List.cons.inj heq).1 h2
      · rfl
  | plus => rfl
  | minus => rfl

theorem stop_digitsText {ok : List Char} (ds : List (Fin 10)) {t : List Char}
    (h1 : ∀ c ∈ decimalDigits, c ∉ ok) (h2 : stop ok t) : stop ok (digitsText ds ++ t) :=
  stop_append (fun c hc => h1 c (digitsText_mem ds c hc)) h2

theorem stop_expText {ok : List Char} (n : Numeral) (he : 'e' ∉ ok) (hE : 'E' ∉ ok) {t : List Char}
    (h : stop ok t) : stop ok (n.expText ++ t) := by
  unfold Numeral.expText
  split
  · simpa using h
  · next capital s ds _ =>
    cases capital
    · exact stop_cons he
    · exact stop_cons hE

theorem stop_fracText {ok : List Char} (n : Numeral) (hp : '.' ∉ ok) {t : List Char}
    (h : stop ok t) : stop ok (n.fracText ++ t) := by
  unfold Numeral.fracText
  split
  · simpa using h
  · exact stop_cons hp

theorem digitsText_length (ds : List (Fin 10)) : (digitsText ds).length = ds.length := by
  simp [digitsText]

theorem foldl_digits_le (ds : List (Fin 10)) (a : ℕ) :
    a ≤ List.foldl (fun acc (d : Fin 10) => 10 * acc + d.val) a ds := by
  induction ds generalizing a with
  | nil => exact le_rfl
  | cons d ds ih =>
    simp only [List.foldl_cons]
    exact le_trans (by omega) (ih (10 * a + d.val))

theorem expDigitsVal_digitsText (ds : List (Fin 10)) (h : natOfDigits ds < 100000) :
    expDigitsVal (digitsText ds) = natOfDigits ds := by
  have gen : ∀ (ds : List (Fin 10)) (a : ℕ),
      List.foldl (fun acc (d : Fin 10) => 10 * acc + d.val) a ds < 100000 →
      List.foldl (fun e c => if e < 10000 then 10 * e + (c.toNat - '0'.toNat) else e) a
          (digitsText ds) =
        List.foldl (fun acc (d : Fin 10) => 10 * acc + d.val) a ds := by
    intro ds
    induction ds with
    | nil => intro a _; rfl
    | cons d ds ih =>
      intro a ha
      simp only [List.foldl_cons] at ha
      have h1 := foldl_digits_le ds (10 * a + d.val)
      have ha' : a < 10000 := by omega
      simp only [digitsText, List.map_cons, List.foldl_cons] at ih ⊢
      rw [if_pos ha', digitChar_val, ih _ ha]
  exact gen ds 0 h

theorem parseExp_expText (n : Numeral) (h : ∀ e ∈ n.ex, e.2.2 ≠ [] ∧ natOfDigits e.2.2 < 100000) :
    parseExp n.expText = some n.expValue := by
  unfold Numeral.expText Numeral.expValue
  cases hx : n.ex with
  | none => rfl
  | some e =>
    obtain ⟨capital, s, ds⟩ := e
    have hds : ds ≠ [] := (h (capital, s, ds) (by simp [hx])).1
    have hcap : natOfDigits ds < 100000 := (h (capital, s, ds) (by simp [hx])).2
    have h1 : optSign (s.text ++ digitsText ds) = (s.neg, digitsText ds) := by
      have := optSign_text s (digitsText ds ++ [])
        (stop_digitsText ds (by decide) (stop_nil _))
      simpa using this
    have h2 : spanDigits (digitsText ds) = (digitsText ds, []) := by
      have := spanDigits_append (digitsText ds) [] (digitsText_mem ds) (stop_nil _)
      simpa using this
    have h3 : digitsText ds ≠ [] := fun e => hds (digitsText_eq_nil.mp e)
    have hc : ((if capital = true then 'E' else 'e') = 'e' ||
        (if capital = true then 'E' else 'e') = 'E') = true := by
      cases capital <;> decide
    simp only [parseExp, hc, h1, h2, ↓reduceIte, expDigitsVal_digitsText ds hcap]
    simp only [h3, decide_False, bne_self_eq_false, Bool.or_self, Bool.false_eq_true, ↓reduceIte]
    cases s.neg <;> rfl

theorem readFloat_text (n : Numeral) (h : n.WellFormed) :
    readFloat n.text = some ⟨n.sign.neg, natOfDigits (n.ip ++ n.fracDigits),
      n.expValue - (n.fracDigits.length : ℤ)⟩ := by
  obtain ⟨hd, he⟩ := h
  have sE : ∀ ok : List Char, 'e' ∉ ok → 'E' ∉ ok → stop ok n.expText := by
    intro ok h1 h2
    simpa using stop_expText n h1 h2 (stop_nil ok)
  have h1 : optSign n.text = (n.sign.neg, digitsText n.ip ++ (n.fracText ++ n.expText)) :=
    optSign_text _ _ (stop_digitsText _ (by decide)
      (stop_fracText n (by decide) (sE _ (by decide) (by decide))))
  have h2 : spanDigits (digitsText n.ip ++ (n.fracText ++ n.expText)) =
      (digitsText n.ip, n.fracText ++ n.expText) :=
    spanDigits_append _ _ (digitsText_mem _)
      (stop_fracText n (by decide) (sE _ (by decide) (by decide)))
  have h3 : (match n.fracText ++ n.expText with
      | '.' :: r => (spanDigits r).1
      | _ => []) = digitsText n.fracDigits ∧
      (match n.fracText ++ n.expText with
      | '.' :: r => (spanDigits r).2
      | r => r) = n.expText := by
    unfold Numeral.fracText Numeral.fracDigits
    cases hf : n.fp with
    | none =>
      simp only [List.nil_append, Option.getD_none]
      have hs := sE ['.'] (by decide) (by decide)
      cases hx : n.expText with
      | nil => exact ⟨rfl, rfl⟩
      | cons c t =>
        rw [hx] at hs
        have hc : c ≠ '.' := fun e => hs c (by simp) (by simp [e])
        constructor
        · split
          · next r heq => exact absurd (List.cons.inj heq).1 hc
          · rfl
        · split
          · next r heq => exact absurd (List.cons.inj heq).1 hc
          · rfl
    | some f =>
      have := spanDigits_append (digitsText f) n.expText (digitsText_mem f)
        (sE _ (by decide) (by decide))
      simp [this]
  have h4 : (digitsText n.ip = [] && digitsText n.fracDigits = []) = false := by
    have : digitsText n.ip ++ digitsText n.fracDigits ≠ [] := by
      rw [← digitsText_append]
      exact fun e => hd (digitsText_eq_nil.mp e)
    cases h5 : decide (digitsText n.ip = []) <;> cases h6 : decide (digitsText n.fracDigits = [])
      <;> simp_all
  unfold readFloat
  simp only [h1, h2, h3.1, h3.2, h4, parseExp_expText n he, Bool.false_eq_true, ↓reduceIte,
    ← digitsText_append, digitsVal_digitsText, digitsText_length]

theorem toRat_eq_value (n : Numeral) :
    Decimal.toRat ⟨n.sign.neg, natOfDigits (n.ip ++ n.fracDigits),
      n.expValue - (n.fracDigits.length : ℤ)⟩ = n.value := by
  have key : ((natOfDigits (n.ip ++ n.fracDigits) : ℕ) : ℚ) *
      (10 : ℚ) ^ (n.expValue - (n.fracDigits.length : ℤ)) =
      ((natOfDigits n.ip : ℚ) + (natOfDigits n.fracDigits : ℚ) / 10 ^ n.fracDigits.length)
        * (10 : ℚ) ^ n.expValue := by
    rw [natOfDigits_append, zpow_sub₀ (by norm_num : (10 : ℚ) ≠ 0), zpow_natCast]
    push_cast
    field_simp
  simp only [Decimal.toRat, Numeral.value, key]

theorem parseFloat_text (n : Numeral) (h : n.WellFormed) (hr : n.InRange) :
    parseFloat n.text = some (f64 n.value) := by
  have : ¬ ((2 : ℚ) ^ 1024 ≤ |f64 n.value|) := not_le.mpr hr
  simp only [parseFloat, readFloat_text n h, toRat_eq_value, this, ↓reduceIte]

theorem floatToken_text (n : Numeral) (rest : List Char)
    (hrest : ∀ c ∈ rest.head?, isSpace c = true) :
    floatToken (n.text ++ rest) = (n.text, rest) := by
  have hsg : n.sign.text = [] ∨ n.sign.text = ['+'] ∨ n.sign.text = ['-'] := by
    cases n.sign <;> simp [Sign.text]
  have hfr : n.fracText = [] ∨ ∃ fp, n.fracText = '.' :: fp ∧ ∀ c ∈ fp, c ∈ decimalDigits := by
    unfold Numeral.fracText
    cases n.fp with
    | none => exact Or.inl rfl
    | some f => exact Or.inr ⟨digitsText f, rfl, digitsText_mem f⟩
  have hex : n.expText = [] ∨ ∃ em es ed, n.expText = em :: (es ++ ed) ∧ (em = 'e' ∨ em = 'E') ∧
      (es = [] ∨ es = ['+'] ∨ es = ['-']) ∧ ∀ c ∈ ed, c ∈ decimalDigits := by
    unfold Numeral.expText
    cases n.ex with
    | none => exact Or.inl rfl
    | some e =>
      obtain ⟨capital, s, ds⟩ := e
      refine Or.inr ⟨_, s.text, digitsText ds, rfl, ?_, ?_, digitsText_mem ds⟩
      · cases capital <;> simp
      · cases s <;> simp [Sign.text]
  have := floatToken_numeral n.sign.text (digitsText n.ip) n.fracText n.expText rest hsg
    (digitsText_mem _) hfr hex hrest
  simpa [Numeral.text] using this

theorem text_head (n : Numeral) (h : n.WellFormed) :
    ∃ c t, n.text = c :: t ∧ isSpace c = false := by
  obtain ⟨hd, -⟩ := h
  unfold Numeral.text
  cases hs : n.sign with
  | plus => exact ⟨'+', _, rfl, by decide⟩
  | minus => exact ⟨'-', _, rfl, by decide⟩
  | absent =>
    cases hi : n.ip with
    | cons d ds =>
      refine ⟨Nat.digitChar d.val, _, rfl, ?_⟩
      have : ∀ c ∈ decimalDigits, isSpace c = false := by decide
      exact this _ (digitChar_mem d)
    | nil =>
      unfold Numeral.fracText
      cases hf : n.fp with
      | some f => exact ⟨'.', _, rfl, by decide⟩
      | none =>
        exfalso
        apply hd
        simp [hi, Numeral.fracDigits, hf]

theorem skipSpace_blanks (bl : List Char) (c : Char) (t : List Char)
    (hb : ∀ b ∈ bl, isBlank b = true) (hc : isSpace c = false) :
    skipSpace (bl ++ c :: t) = some (c :: t) := by
  induction bl with
  | nil =>
    have h1 : c ≠ '\r' := fun e => by rw [e] at hc; exact absurd hc (by decide)
    have h2 : c ≠ '\n' := fun e => by rw [e] at hc; exact absurd hc (by decide)
    simp [skipSpace, h1, h2, hc]
  | cons b bl ih =>
    have hb' := hb b (List.mem_cons_self _ _)
    simp only [isBlank, Bool.and_eq_true, bne_iff_ne, ne_eq] at hb'
    have ih' := ih (fun x hx => hb x (List.mem_cons_of_mem _ hx))
    simp only [List.cons_append, skipSpace, hb'.1, hb'.2]
    simp [ih']

theorem dropBlanks_blanks (bl : List Char) (c : Char) (t : List Char)
    (hb : ∀ b ∈ bl, isBlank b = true) (hc : isSpace c = false) :
    dropBlanks (bl ++ c :: t) = c :: t := by
  induction bl with
  | nil => simp [dropBlanks, hc]
  | cons b bl ih =>
    have hb' := hb b (List.mem_cons_self _ _)
    simp only [isBlank, Bool.and_eq_true, bne_iff_ne, ne_eq] at hb'
    have ih' := ih (fun x hx => hb x (List.mem_cons_of_mem _ hx))
    simp [dropBlanks, hb'.1, hb'.2, ih']

theorem advanceSpace_blanks (bl : List Char) (c : Char) (t : List Char)
    (hb : ∀ b ∈ bl, isBlank b = true) (hne : bl ≠ []) (hc : isSpace c = false) :
    advanceSpace (bl ++ c :: t) = some (c :: t) := by
  cases bl with
  | nil => exact absurd rfl hne
  | cons b bl =>
    have hb' := hb b (List.mem_cons_self _ _)
    simp only [isBlank, Bool.and_eq_true, bne_iff_ne, ne_eq] at hb'
    have := dropBlanks_blanks (b :: bl) c t hb hc
    simp only [List.cons_append] at this
    simp [advanceSpace, hb'.1, hb'.2, this]

theorem scanFloat_text (bl : List Char) (n : Numeral) (rest : List Char)
    (hb : ∀ b ∈ bl, isBlank b = true) (h : n.WellFormed) (hr : n.InRange)
    (hrest : ∀ c ∈ rest.head?, isSpace c = true) :
    scanFloat (bl ++ (n.text ++ rest)) = some (f64 n.value, rest) := by
  obtain ⟨c, t, e, hc⟩ := text_head n h
  have ft := floatToken_text n rest hrest
  rw [e] at ft
  simp only [List.cons_append] at ft
  have s1 : skipSpace (bl ++ c :: (t ++ rest)) = some (c :: (t ++ rest)) :=
    skipSpace_blanks bl c _ hb hc
  have s2 : skipSpace (c :: (t ++ rest)) = some (c :: (t ++ rest)) :=
    skipSpace_blanks [] c _ (by simp) hc
  have pf := parseFloat_text n h hr
  rw [e] at pf
  simp only [scanFloat, nextToken, e, List.cons_append, s1, s2, ft, pf]

theorem head_blank_isSpace (bl rest : List Char) (hb : ∀ b ∈ bl, isBlank b = true)
    (hne : bl ≠ []) : ∀ c ∈ (bl ++ rest).head?, isSpace c = true := by
  cases bl with
  | nil => exact absurd rfl hne
  | cons b bl =>
    intro c hc
    have hb' := hb b (List.mem_cons_self _ _)
    simp only [isBlank, Bool.and_eq_true] at hb'
    simp only [List.cons_append, List.head?_cons, Option.mem_def, Option.some.injEq] at hc
    rw [← hc]; exact hb'.1

theorem advance_scanFloat (bl : List Char) (n : Numeral) (rest : List Char)
    (hb : ∀ b ∈ bl, isBlank b = true) (hne : bl ≠ []) (h : n.WellFormed) (hr : n.InRange)
    (hrest : ∀ c ∈ rest.head?, isSpace c = true) :
    (advanceSpace (bl ++ (n.text ++ rest))).bind scanFloat = some (f64 n.value, rest) := by
  obtain ⟨c, t, e, hc⟩ := text_head n h
  have a := advanceSpace_blanks bl c (t ++ rest) hb hne hc
  have s := scanFloat_text [] n rest (by simp) h hr hrest
  rw [e] at s
  simp only [List.nil_append, List.cons_append] at s
  simp only [e, List.cons_append, a, Option.bind, s]

theorem sscanf3_record (b0 b1 b2 rest : List Char) (lat long elev : Numeral)
    (h0 : ∀ b ∈ b0, isBlank b = true) (h1 : ∀ b ∈ b1, isBlank b = true)
    (h2 : ∀ b ∈ b2, isBlank b = true) (n1 : b1 ≠ []) (n2 : b2 ≠ [])
    (wlat : lat.WellFormed) (wlong : long.WellFormed) (welev : elev.WellFormed)
    (rlat : lat.InRange) (rlong : long.InRange) (relev : elev.InRange)
    (hrest : ∀ c ∈ rest.head?, isSpace c = true) :
    sscanf3 (recordText b0 lat b1 long b2 elev rest) =
      ⟨3, f64 lat.value, f64 long.value, f64 elev.value⟩ := by
  have r3 := advance_scanFloat b2 elev rest h2 n2 welev relev hrest
  have r2 := advance_scanFloat b1 long (b2 ++ (elev.text ++ rest)) h1 n1 wlong rlong
    (head_blank_isSpace b2 _ h2 n2)
  have r1 := scanFloat_text b0 lat (b1 ++ (long.text ++ (b2 ++ (elev.text ++ rest)))) h0 wlat rlat
    (head_blank_isSpace b1 _ h1 n1)
  simp only [sscanf3, recordText, r1, r2, r3]

/-! ## Lemmas on binary64 rounding -/

theorem roundHalfEven_err {z : ℚ} (hz : 0 ≤ z) : |(roundHalfEven z : ℚ) - z| ≤ 1 / 2 := by
  have h0 : (0 : ℤ) ≤ ⌊z⌋ := Int.floor_nonneg.mpr hz
  have hc : ((⌊z⌋.toNat : ℕ) : ℚ) = (⌊z⌋ : ℚ) := by
    have : ((⌊z⌋.toNat : ℕ) : ℤ) = ⌊z⌋ := Int.toNat_of_nonneg h0
    exact_mod_cast this
  have h1 := Int.floor_le z
  have h2 := Int.lt_floor_add_one z
  unfold roundHalfEven
  simp only []
  rw [hc]
  split_ifs with a b c
  · rw [hc, abs_le]; constructor <;> linarith
  · push_cast; rw [hc, abs_le]; constructor <;> linarith
  · rw [hc, abs_le]; constructor <;> linarith
  · push_cast; rw [hc, abs_le]; constructor <;> linarith

theorem roundHalfEven_eq {z : ℚ} {k : ℕ} (hz : 0 ≤ z) (h1 : (k : ℚ) - 1 / 2 < z)
    (h2 : z < (k : ℚ) + 1 / 2) : roundHalfEven z = k := by
  have e := roundHalfEven_err hz
  rw [abs_le] at e
  have : ((roundHalfEven z : ℕ) : ℚ) < (k : ℚ) + 1 ∧ (k : ℚ) - 1 < (roundHalfEven z : ℚ) := by
    constructor <;> linarith
  have a : roundHalfEven z < k + 1 := by exact_mod_cast this.1
  have b : (k : ℤ) - 1 < (roundHalfEven z : ℤ) := by exact_mod_cast this.2
  omega

theorem roundHalfEven_natCast (n : ℕ) : roundHalfEven (n : ℚ) = n :=
  roundHalfEven_eq (Nat.cast_nonneg n) (by linarith) (by linarith)

/-- The exponent that `f64` uses for a value. -/
theorem f64_exp_le {y : ℚ} (hy : y ≠ 0) {B : ℚ} (h1 : |y| ≤ B) (h2 : (2 : ℚ) ^ (-1022 : ℤ) ≤ B) :
    (2 : ℚ) ^ (max (Int.log 2 |y|) (-1022)) ≤ B := by
  rcases le_total (Int.log 2 |y|) (-1022) with h | h
  · rw [max_eq_right h]; exact h2
  · rw [max_eq_left h]
    have := Int.zpow_log_le_self (b := 2) (by norm_num) (abs_pos.mpr hy)
    simp only [Nat.cast_ofNat] at this
    exact this.trans h1

theorem f64_of_pos {y : ℚ} (hy : 0 < y) :
    f64 y = (roundHalfEven (y / 2 ^ (max (Int.log 2 y) (-1022) - 52)) : ℚ)
      * 2 ^ (max (Int.log 2 y) (-1022) - 52) := by
  unfold f64
  rw [if_neg hy.ne', if_neg (not_lt.mpr hy.le), abs_of_pos hy]

theorem f64_zero : f64 0 = 0 := by simp [f64]

theorem f64_neg (y : ℚ) : f64 (-y) = -f64 y := by
  rcases lt_trichotomy y 0 with h | h | h
  · have h' : 0 < -y := by linarith
    unfold f64
    rw [if_neg h'.ne', if_neg (not_lt.mpr h'.le), if_neg h.ne, if_pos h, abs_neg, neg_neg]
  · subst h; simp [f64_zero]
  · have h' : -y < 0 := by linarith
    unfold f64
    rw [if_neg h'.ne, if_pos h', if_neg h.ne', if_neg (not_lt.mpr h.le), abs_neg]

theorem f64_nonneg {y : ℚ} (hy : 0 ≤ y) : 0 ≤ f64 y := by
  rcases eq_or_lt_of_le hy with h | h
  · rw [← h, f64_zero]
  · rw [f64_of_pos h]; positivity

theorem f64_err_pos {y : ℚ} (hy : 0 < y) {B : ℚ} (h1 : y ≤ B) (h2 : (2 : ℚ) ^ (-1022 : ℤ) ≤ B) :
    |f64 y - y| ≤ B * 2 ^ (-53 : ℤ) := by
  have hq : (0 : ℚ) < 2 ^ (max (Int.log 2 y) (-1022) - 52) := by positivity
  have hz : 0 ≤ y / 2 ^ (max (Int.log 2 y) (-1022) - 52) := by positivity
  have e := roundHalfEven_err hz
  have hE := f64_exp_le hy.ne' (by rwa [abs_of_pos hy]) h2
  rw [abs_of_pos hy] at hE
  rw [f64_of_pos hy]
  have key : (roundHalfEven (y / 2 ^ (max (Int.log 2 y) (-1022) - 52)) : ℚ)
      * 2 ^ (max (Int.log 2 y) (-1022) - 52) - y
      = ((roundHalfEven (y / 2 ^ (max (Int.log 2 y) (-1022) - 52)) : ℚ)
        - y / 2 ^ (max (Int.log 2 y) (-1022) - 52)) * 2 ^ (max (Int.log 2 y) (-1022) - 52) := by
    field_simp
  rw [key, abs_mul, abs_of_pos hq]
  have hs : (2 : ℚ) ^ (max (Int.log 2 y) (-1022) - 52)
      = 2 ^ (max (Int.log 2 y) (-1022)) * 2 ^ (-52 : ℤ) := by
    rw [sub_eq_add_neg, zpow_add₀ (by norm_num)]
  rw [hs]
  have h53 : (2 : ℚ) ^ (-53 : ℤ) = 1 / 2 * 2 ^ (-52 : ℤ) := by norm_num
  rw [h53]
  have hpos : (0 : ℚ) < 2 ^ (max (Int.log 2 y) (-1022)) := by positivity
  have h52 : (0 : ℚ) < 2 ^ (-52 : ℤ) := by positivity
  calc |(roundHalfEven (y / (2 ^ (max (Int.log 2 y) (-1022)) * 2 ^ (-52 : ℤ))) : ℚ)
          - y / (2 ^ (max (Int.log 2 y) (-1022)) * 2 ^ (-52 : ℤ))|
        * (2 ^ (max (Int.log 2 y) (-1022)) * 2 ^ (-52 : ℤ))
      ≤ 1 / 2 * (2 ^ (max (Int.log 2 y) (-1022)) * 2 ^ (-52 : ℤ)) := by
        rw [hs] at e
        exact mul_le_mul_of_nonneg_right e (by positivity)
    _ ≤ B * (1 / 2 * 2 ^ (-52 : ℤ)) := by nlinarith

/-- The rounding error of `f64` on a value of magnitude at most `B`. -/
theorem f64_err {y B : ℚ} (h1 : |y| ≤ B) (h2 : (2 : ℚ) ^ (-1022 : ℤ) ≤ B) :
    |f64 y - y| ≤ B * 2 ^ (-53 : ℤ) := by
  rcases lt_trichotomy y 0 with h | h | h
  · have h' : 0 < -y := by linarith
    have := f64_err_pos h' (by rwa [abs_of_neg h] at h1) h2
    rw [f64_neg] at this
    rw [← abs_neg]
    convert this using 2
    ring
  · subst h
    rw [f64_zero]
    simp only [sub_zero, abs_zero]
    have : (0 : ℚ) < 2 ^ (-1022 : ℤ) := by positivity
    have : (0 : ℚ) < 2 ^ (-53 : ℤ) := by positivity
    nlinarith
  · exact f64_err_pos h (by rwa [abs_of_pos h] at h1) h2

/-- The value of `f64` at a positive number whose exponent and rounded
significand are known. -/
theorem f64_eval {y : ℚ} (e : ℤ) (k : ℕ) (h0 : 0 < y) (h1 : (2 : ℚ) ^ e ≤ y)
    (h2 : y < (2 : ℚ) ^ (e + 1)) (h3 : -1022 ≤ e)
    (h4 : (k : ℚ) - 1 / 2 < y / 2 ^ (e - 52)) (h5 : y / 2 ^ (e - 52) < (k : ℚ) + 1 / 2) :
    f64 y = (k : ℚ) * 2 ^ (e - 52) := by
  have hl : Int.log 2 y = e := by
    have a : e ≤ Int.log 2 y :=
      (Int.zpow_le_iff_le_log (b := 2) (by norm_num) h0).mp (by simpa using h1)
    have b : Int.log 2 y < e + 1 :=
      (Int.lt_zpow_iff_log_lt (b := 2) (by norm_num) h0).mp (by simpa using h2)
    omega
  rw [f64_of_pos h0, hl, max_eq_left h3, roundHalfEven_eq (by positivity) h4 h5]

theorem f64_dyadic_pos (m : ℕ) (j : ℤ) (hm0 : 0 < m) (hm : m < 2 ^ 53) (hj : -1074 ≤ j) :
    f64 ((m : ℚ) * 2 ^ j) = (m : ℚ) * 2 ^ j := by
  have hy : (0 : ℚ) < (m : ℚ) * 2 ^ j := by positivity
  have hlog : Int.log 2 ((m : ℚ) * 2 ^ j) < j + 53 := by
    apply (Int.lt_zpow_iff_log_lt (b := 2) (by norm_num) hy).mp
    simp only [Nat.cast_ofNat]
    rw [zpow_add₀ (by norm_num), mul_comm ((2 : ℚ) ^ j)]
    have h53 : (2 : ℚ) ^ (53 : ℤ) = ((2 ^ 53 : ℕ) : ℚ) := by norm_num
    have : (m : ℚ) < 2 ^ (53 : ℤ) := by
      rw [h53]; exact_mod_cast hm
    exact mul_lt_mul_of_pos_right this (by positivity)
  obtain ⟨n, hn⟩ : ∃ n : ℕ, j - (max (Int.log 2 ((m : ℚ) * 2 ^ j)) (-1022) - 52) = (n : ℤ) := by
    have : 0 ≤ j - (max (Int.log 2 ((m : ℚ) * 2 ^ j)) (-1022) - 52) := by
      rcases le_total (Int.log 2 ((m : ℚ) * 2 ^ j)) (-1022) with h | h
      · rw [max_eq_right h]; omega
      · rw [max_eq_left h]; omega
    exact ⟨_, (Int.toNat_of_nonneg this).symm⟩
  have hdiv : (m : ℚ) * 2 ^ j / 2 ^ (max (Int.log 2 ((m : ℚ) * 2 ^ j)) (-1022) - 52)
      = ((m * 2 ^ n : ℕ) : ℚ) := by
    rw [mul_div_assoc, ← zpow_sub₀ (by norm_num), hn]
    push_cast
    rw [zpow_natCast]
  rw [f64_of_pos hy, hdiv, roundHalfEven_natCast]
  push_cast
  rw [mul_assoc, ← zpow_natCast, ← hn, ← zpow_add₀ (by norm_num)]
  congr 2
  ring

/-- A dyadic number with a significand below `2 ^ 53` is a `float64` value. -/
theorem f64_dyadic (m : ℤ) (j : ℤ) (hm : |m| < 2 ^ 53) (hj : -1074 ≤ j) :
    f64 ((m : ℚ) * 2 ^ j) = (m : ℚ) * 2 ^ j := by
  rcases lt_trichotomy m 0 with h | h | h
  · obtain ⟨n, hn⟩ : ∃ n : ℕ, -m = (n : ℤ) := ⟨(-m).toNat, (Int.toNat_of_nonneg (by omega)).symm⟩
    have hn0 : 0 < n := by omega
    have hn53 : n < 2 ^ 53 := by
      have : |m| = -m := abs_of_neg h
      have : (n : ℤ) < 2 ^ 53 := by omega
      exact_mod_cast this
    have e : (m : ℚ) = -(n : ℚ) := by
      have : m = -(n : ℤ) := by omega
      rw [this]; push_cast; ring
    rw [e, neg_mul, f64_neg, f64_dyadic_pos n j hn0 hn53 hj]
  · subst h; simp [f64_zero]
  · obtain ⟨n, hn⟩ : ∃ n : ℕ, m = (n : ℤ) := ⟨m.toNat, (Int.toNat_of_nonneg (by omega)).symm⟩
    have hn0 : 0 < n := by omega
    have hn53 : n < 2 ^ 53 := by
      have : |m| = m := abs_of_pos h
      have : (n : ℤ) < 2 ^ 53 := by omega
      exact_mod_cast this
    rw [hn]
    exact_mod_cast f64_dyadic_pos n j hn0 hn53 hj

/-- An integer of magnitude below `2 ^ 53` converts to `float64` exactly. -/
theorem f64_intCast (m : ℤ) (hm : |m| < 2 ^ 53) : f64 (m : ℚ) = (m : ℚ) := by
  have := f64_dyadic m 0 hm (by norm_num)
  simpa using this

theorem hms64_neg (x : ℚ) :
    hms64 (-x) = (-(hms64 x).1, -(hms64 x).2.1, -(hms64 x).2.2) := by
  simp only [hms64, goInt_neg]
  have e1 : -x - ((-goInt x : ℤ) : ℚ) = -(x - (goInt x : ℚ)) := by push_cast; ring
  rw [e1, f64_neg, neg_mul, f64_neg, goInt_neg]
  have e2 : -f64 (f64 (x - (goInt x : ℚ)) * 60)
      - ((-goInt (f64 (f64 (x - (goInt x : ℚ)) * 60)) : ℤ) : ℚ)
      = -(f64 (f64 (x - (goInt x : ℚ)) * 60) - (goInt (f64 (f64 (x - (goInt x : ℚ)) * 60)) : ℚ)) := by
    push_cast; ring
  rw [e2, f64_neg, neg_mul, f64_neg, goInt_neg]

/-- In `float64` the fields stay within one second of the truncated count. -/
theorem hms64_nonneg_close {x : ℚ} (hx : 0 ≤ x) :
    |3600 * (hms64 x).1 + 60 * (hms64 x).2.1 + (hms64 x).2.2 - ⌊3600 * x⌋| ≤ 1 := by
  have hB : (2 : ℚ) ^ (-1022 : ℤ) ≤ 1 := by
    rw [zpow_neg]; exact inv_le_one_of_one_le₀ (one_le_zpow₀ (by norm_num) (by norm_num))
  have hB61 : (2 : ℚ) ^ (-1022 : ℤ) ≤ 61 := hB.trans (by norm_num)
  have u : (2 : ℚ) ^ (-53 : ℤ) ≤ 1 / 8000000000000000 := by norm_num
  have u0 : (0 : ℚ) < 2 ^ (-53 : ℤ) := by positivity
  obtain ⟨ε, hε⟩ : ∃ ε : ℚ, ε = 2 ^ (-53 : ℤ) := ⟨_, rfl⟩
  rw [← hε] at u u0
  have hfl : ∀ y : ℚ, 0 ≤ y → goInt y = ⌊y⌋ := fun y h => goInt_of_nonneg h
  have err1 : ∀ y : ℚ, 0 ≤ y → y ≤ 1 → 0 ≤ f64 y ∧ f64 y - y ≤ ε ∧ -ε ≤ f64 y - y := by
    intro y h0 h1
    have e := f64_err (y := y) (B := 1) (by rwa [abs_of_nonneg h0]) hB
    rw [abs_le, ← hε] at e
    exact ⟨f64_nonneg h0, by linarith [e.2], by linarith [e.1]⟩
  have err61 : ∀ y : ℚ, 0 ≤ y → y ≤ 61 → 0 ≤ f64 y ∧ f64 y - y ≤ 61 * ε ∧ -(61 * ε) ≤ f64 y - y := by
    intro y h0 h1
    have e := f64_err (y := y) (B := 61) (by rwa [abs_of_nonneg h0]) hB61
    rw [abs_le, ← hε] at e
    exact ⟨f64_nonneg h0, e.2, e.1⟩
  simp only [hms64, hfl x hx]
  -- hours
  have ha0 : 0 ≤ x - (⌊x⌋ : ℚ) := sub_nonneg.mpr (Int.floor_le x)
  have ha1 : x - (⌊x⌋ : ℚ) < 1 := by linarith [Int.lt_floor_add_one x]
  obtain ⟨t1, e0u, e0l⟩ := err1 _ ha0 ha1.le
  generalize f64 (x - (⌊x⌋ : ℚ)) = a at t1 e0u e0l ⊢
  -- minutes
  obtain ⟨p1, e1u, e1l⟩ := err61 (a * 60) (by positivity) (by linarith)
  generalize f64 (a * 60) = p at p1 e1u e1l ⊢
  rw [hfl p p1]
  have hb0 : 0 ≤ p - (⌊p⌋ : ℚ) := sub_nonneg.mpr (Int.floor_le p)
  have hb1 : p - (⌊p⌋ : ℚ) < 1 := by linarith [Int.lt_floor_add_one p]
  obtain ⟨t2, e2u, e2l⟩ := err1 _ hb0 hb1.le
  generalize f64 (p - (⌊p⌋ : ℚ)) = b at t2 e2u e2l ⊢
  -- seconds
  obtain ⟨p2, e3u, e3l⟩ := err61 (b * 60) (by positivity) (by linarith)
  generalize f64 (b * 60) = r at p2 e3u e3l ⊢
  rw [hfl r p2]
  have hs0 := Int.floor_le r
  have hs1 := Int.lt_floor_add_one r
  -- the truncated count lies between total - 1 and total + 1
  have lo : (3600 * ⌊x⌋ + 60 * ⌊p⌋ + ⌊r⌋ - 1 : ℤ) ≤ ⌊3600 * x⌋ := by
    apply Int.le_floor.mpr
    push_cast
    linarith
  have hi : ⌊3600 * x⌋ < 3600 * ⌊x⌋ + 60 * ⌊p⌋ + ⌊r⌋ + 2 := by
    apply Int.floor_lt.mpr
    push_cast
    linarith
  rw [abs_le]
  constructor <;> omega

/-- A number of magnitude at most `2 ^ 1023` rounds to a finite `float64`. -/
theorem f64_finite {y : ℚ} (h : |y| ≤ 2 ^ 1023) : |f64 y| < 2 ^ 1024 := by
  have hB : (2 : ℚ) ^ (-1022 : ℤ) ≤ 2 ^ 1023 := by
    have h1 : (2 : ℚ) ^ (-1022 : ℤ) ≤ 1 := by
      rw [zpow_neg]; exact inv_le_one_of_one_le₀ (one_le_zpow₀ (by norm_num) (by norm_num))
    exact h1.trans (one_le_pow₀ (by norm_num))
  have e := f64_err h hB
  have u : (2 : ℚ) ^ (-53 : ℤ) ≤ 1 / 2 := by norm_num
  have p : (0 : ℚ) < 2 ^ 1023 := by positivity
  have t : (2 : ℚ) ^ 1024 = 2 * 2 ^ 1023 := by rw [pow_succ]; ring
  have a : |f64 y| ≤ |f64 y - y| + |y| := by
    have := abs_add (f64 y - y) y
    simpa using this
  have b : (2 : ℚ) ^ 1023 * 2 ^ (-53 : ℤ) ≤ 2 ^ 1023 * (1 / 2) :=
    mul_le_mul_of_nonneg_left u p.le
  rw [t]
  generalize (2 : ℚ) ^ 1023 = A at h e p b
  generalize (2 : ℚ) ^ (-53 : ℤ) = ε at e b
  generalize |f64 y - y| = E at e a
  generalize |f64 y| = F at a ⊢
  generalize |y| = Y at h a
  generalize A * ε = P at e b
  linarith

theorem parseFloat_of_readFloat {tok : List Char} {d : Decimal} (h : readFloat tok = some d)
    (hb : |d.toRat| ≤ 2 ^ 1023) : parseFloat tok = some (f64 d.toRat) := by
  have : ¬ ((2 : ℚ) ^ 1024 ≤ |f64 d.toRat|) := not_le.mpr (f64_finite hb)
  simp only [parseFloat, h, this, ↓reduceIte]

/-- The text of `%.2f` for a number that is not negative, given its count of
hundredths after rounding. -/
theorem fmtFloat2_eval {x : ℚ} (r : ℕ) (hx : 0 ≤ x) (h1 : (r : ℚ) - 1 / 2 < x * 100)
    (h2 : x * 100 < (r : ℚ) + 1 / 2) :
    fmtFloat2 x = Nat.toDigits 10 (r / 100) ++ ['.'] ++ fmtInteger 2 ((r % 100 : ℕ) : ℤ) := by
  unfold fmtFloat2
  rw [abs_of_nonneg hx, roundHalfEven_eq (by positivity) h1 h2, if_neg (not_lt.mpr hx)]

/-- The text of `%.2f` for a negative number. -/
theorem fmtFloat2_eval_neg {x : ℚ} (r : ℕ) (hx : x < 0) (h1 : (r : ℚ) - 1 / 2 < -x * 100)
    (h2 : -x * 100 < (r : ℚ) + 1 / 2) :
    fmtFloat2 x =
      '-' :: (Nat.toDigits 10 (r / 100) ++ ['.'] ++ fmtInteger 2 ((r % 100 : ℕ) : ℤ)) := by
  unfold fmtFloat2
  rw [abs_of_neg hx, roundHalfEven_eq (by nlinarith) h1 h2, if_pos hx]

theorem julianSeconds_of_no_wrap {T : ℤ} (h1 : -9223372036854775808 ≤ T)
    (h2 : T ≤ 9223371825988015807) : julianSeconds T = T + 210866760000 := by
  unfold julianSeconds wrapI64
  rw [tJulian_eq]
  omega

theorem julianDate_t2000 : julianDate 946684800 = 2451544.5 := by
  have s : julianSeconds 946684800 = 211813444800 :=
    julianSeconds_of_no_wrap (by norm_num) (by norm_num)
  have a : f64 ((211813444800 : ℤ) : ℚ) = ((211813444800 : ℤ) : ℚ) :=
    f64_intCast _ (by norm_num)
  have b := f64_dyadic 4903089 (-1) (by norm_num) (by norm_num)
  have e : ((211813444800 : ℤ) : ℚ) / 86400 = ((4903089 : ℤ) : ℚ) * 2 ^ (-1 : ℤ) := by norm_num
  unfold julianDate
  rw [s, a, e, b]
  norm_num

theorem julianDate_2026 : julianDate 1767237264 = 1321261667052421 / 536870912 := by
  have s : julianSeconds 1767237264 = 212633997264 :=
    julianSeconds_of_no_wrap (by norm_num) (by norm_num)
  have a : f64 ((212633997264 : ℤ) : ℚ) = ((212633997264 : ℤ) : ℚ) :=
    f64_intCast _ (by norm_num)
  have b := f64_eval (y := ((212633997264 : ℤ) : ℚ) / 86400) 21 5285046668209684
    (by norm_num) (by norm_num) (by norm_num) (by norm_num) (by norm_num) (by norm_num)
  unfold julianDate
  rw [s, a, b]
  norm_num

theorem julianDate_wrapped : julianDate 9223372036854775807 = -(3416063639254821 / 32) := by
  have s : julianSeconds 9223372036854775807 = -9223371825988015809 := by decide
  have a : f64 ((-9223371825988015809 : ℤ) : ℚ) = -9223371825988016128 := by
    have := f64_eval (y := (9223371825988015809 : ℚ)) 62 9007199048816422
      (by norm_num) (by norm_num) (by norm_num) (by norm_num) (by norm_num) (by norm_num)
    have e : ((-9223371825988015809 : ℤ) : ℚ) = -(9223371825988015809 : ℚ) := by norm_num
    rw [e, f64_neg, this]
    norm_num
  have b : f64 (-9223371825988016128 / 86400) = -(3416063639254821 / 32) := by
    have := f64_eval (y := (9223371825988016128 : ℚ) / 86400) 46 6832127278509642
      (by norm_num) (by norm_num) (by norm_num) (by norm_num) (by norm_num) (by norm_num)
    have e : (-9223371825988016128 : ℚ) / 86400 = -((9223371825988016128 : ℚ) / 86400) := by
      norm_num
    rw [e, f64_neg, this]
    norm_num
  unfold julianDate
  rw [s, a, b]

/-- The scan of the sky file `51.48 0.0 46.0`: three numbers, the second 0. -/
theorem sscanf3_greenwich :
    sscanf3 "51.48 0.0 46.0\n".data =
      ⟨3, f64 (Decimal.toRat ⟨false, 5148, -2⟩), 0, f64 (Decimal.toRat ⟨false, 460, -1⟩)⟩ := by
  have t1 : nextToken "51.48 0.0 46.0\n".data = some ("51.48".data, " 0.0 46.0\n".data) := by
    decide
  have a1 : advanceSpace " 0.0 46.0\n".data = some "0.0 46.0\n".data := by decide
  have t2 : nextToken "0.0 46.0\n".data = some ("0.0".data, " 46.0\n".data) := by decide
  have a2 : advanceSpace " 46.0\n".data = some "46.0\n".data := by decide
  have t3 : nextToken "46.0\n".data = some ("46.0".data, "\n".data) := by decide
  have r1 : readFloat "51.48".data = some ⟨false, 5148, -2⟩ := by decide
  have r2 : readFloat "0.0".data = some ⟨false, 0, -1⟩ := by decide
  have r3 : readFloat "46.0".data = some ⟨false, 460, -1⟩ := by decide
  have p1 := parseFloat_of_readFloat r1 (by rw [abs_le]; constructor <;> norm_num [Decimal.toRat])
  have p2 := parseFloat_of_readFloat r2 (by rw [abs_le]; constructor <;> norm_num [Decimal.toRat])
  have p3 := parseFloat_of_readFloat r3 (by rw [abs_le]; constructor <;> norm_num [Decimal.toRat])
  have z : f64 (Decimal.toRat ⟨false, 0, -1⟩) = 0 := by norm_num [Decimal.toRat, f64_zero]
  rw [z] at p2
  simp only [sscanf3, scanFloat, t1, t2, t3, a1, a2, p1, p2, p3, Option.map, Option.bind]

/-- The scan of `10.0` followed by whatever `advanceSpace` refuses stores one
number. -/
theorem parseFloat_ten : parseFloat "10.0".data = some (f64 (Decimal.toRat ⟨false, 100, -1⟩)) :=
  parseFloat_of_readFloat (by decide) (by rw [abs_le]; constructor <;> norm_num [Decimal.toRat])

/-- A number of magnitude at least `2 ^ 1025` rounds beyond the finite
`float64` values. -/
theorem f64_overflow {y : ℚ} (h : 2 ^ 1025 ≤ |y|) : 2 ^ 1024 ≤ |f64 y| := by
  have p : (1 : ℚ) ≤ 2 ^ 1025 := one_le_pow₀ (by norm_num)
  have hB : (2 : ℚ) ^ (-1022 : ℤ) ≤ |y| := by
    have h1 : (2 : ℚ) ^ (-1022 : ℤ) ≤ 1 := by
      rw [zpow_neg]; exact inv_le_one_of_one_le₀ (one_le_zpow₀ (by norm_num) (by norm_num))
    exact h1.trans (p.trans h)
  have e := f64_err (le_refl |y|) hB
  have u : (2 : ℚ) ^ (-53 : ℤ) ≤ 1 / 2 := by norm_num
  have y0 : (0 : ℚ) ≤ |y| := abs_nonneg y
  have b : |y| * (2 : ℚ) ^ (-53 : ℤ) ≤ |y| * (1 / 2) := mul_le_mul_of_nonneg_left u y0
  have t : (2 : ℚ) ^ 1025 = 2 * 2 ^ 1024 := by rw [pow_succ]; ring
  have a : |y| ≤ |y - f64 y| + |f64 y| := by
    have := abs_add (y - f64 y) (f64 y)
    simpa using this
  rw [abs_sub_comm] at e
  rw [t] at h
  generalize (2 : ℚ) ^ 1024 = A at h ⊢
  generalize |y| * (2 : ℚ) ^ (-53 : ℤ) = P at e b
  generalize |y - f64 y| = E at e a
  generalize |f64 y| = F at a ⊢
  generalize |y| = Y at h a b y0
  linarith

/-- A decimal of magnitude at least `2 ^ 1025` is a range error of
`strconv.ParseFloat`. -/
theorem parseFloat_overflow {tok : List Char} {d : Decimal} (h : readFloat tok = some d)
    (hb : 2 ^ 1025 ≤ |d.toRat|) : parseFloat tok = none := by
  simp only [parseFloat, h, f64_overflow hb, ↓reduceIte]

/-- In `float64` the fields stay within one second of the truncated count,
for either sign. -/
theorem hms64_close (x : ℚ) :
    |3600 * (hms64 x).1 + 60 * (hms64 x).2.1 + (hms64 x).2.2 - goInt (3600 * x)| ≤ 1 := by
  rcases le_total 0 x with h | h
  · rw [goInt_of_nonneg (by positivity)]
    exact hms64_nonneg_close h
  · have hx : 0 ≤ -x := by linarith
    have k := hms64_nonneg_close hx
    have e : goInt (3600 * x) = -⌊3600 * -x⌋ := by
      have : 3600 * x = -(3600 * -x) := by ring
      rw [this, goInt_neg, goInt_of_nonneg (by positivity)]
    rw [hms64_neg] at k
    simp only at k
    rw [e, abs_le] at *
    constructor <;> omega

/-- When the four `float64` operations of the decomposition are exact, the
fields are those of the exact decomposition. -/
theorem hms64_of_exact (x : ℚ)
    (e1 : f64 (x - (goInt x : ℚ)) = x - (goInt x : ℚ))
    (e2 : f64 ((x - (goInt x : ℚ)) * 60) = (x - (goInt x : ℚ)) * 60)
    (e3 : f64 ((x - (goInt x : ℚ)) * 60 - (goInt ((x - (goInt x : ℚ)) * 60) : ℚ))
      = (x - (goInt x : ℚ)) * 60 - (goInt ((x - (goInt x : ℚ)) * 60) : ℚ))
    (e4 : f64 (((x - (goInt x : ℚ)) * 60 - (goInt ((x - (goInt x : ℚ)) * 60) : ℚ)) * 60)
      = ((x - (goInt x : ℚ)) * 60 - (goInt ((x - (goInt x : ℚ)) * 60) : ℚ)) * 60) :
    hms64 x = hms x := by
  simp only [hms64, hms, e1, e2, e3, e4]

/-- Rounding at a tie goes to the even neighbour. -/
theorem roundHalfEven_tie (f : ℕ) :
    roundHalfEven ((f : ℚ) + 1 / 2) = if f % 2 = 0 then f else f + 1 := by
  have h : ⌊(f : ℚ) + 1 / 2⌋ = (f : ℤ) := by
    rw [Int.floor_eq_iff]
    constructor <;> push_cast <;> linarith
  unfold roundHalfEven
  simp only [h, Int.toNat_ofNat, add_sub_cancel_left, lt_self_iff_false, ↓reduceIte]

/-- Without wrap-around the Julian date printed is not negative from the
Julian epoch on. -/
theorem julianDate_nonneg {T : ℤ} (h1 : -210866760000 ≤ T) (h2 : T ≤ 9223371825988015807) :
    0 ≤ julianDate T := by
  unfold julianDate
  rw [julianSeconds_of_no_wrap (by omega) h2]
  apply f64_nonneg
  apply div_nonneg _ (by norm_num)
  apply f64_nonneg
  exact_mod_cast (by omega : 0 ≤ T + 210866760000)

/-- While the count of seconds converts exactly, the Julian date printed is
the day count rounded once. -/
theorem julianDate_of_small {T : ℤ} (h : |T + 210866760000| < 2 ^ 53) :
    julianDate T = f64 (julianDayCount T) := by
  rw [abs_lt] at h
  unfold julianDate julianDayCount
  rw [julianSeconds_of_no_wrap (by omega) (by omega), f64_intCast _ (by rw [abs_lt]; exact h),
    tJulian_eq]
  push_cast
  norm_num

theorem scanFloat_of_token {inp tok rest : List Char} {v : ℚ}
    (ht : nextToken inp = some (tok, rest)) (hp : parseFloat tok = some v) :
    scanFloat inp = some (v, rest) := by
  simp only [scanFloat, ht, hp]

theorem scanFloat_of_error {inp tok rest : List Char}
    (ht : nextToken inp = some (tok, rest)) (hp : parseFloat tok = none) :
    scanFloat inp = none := by
  simp only [scanFloat, ht, hp]

theorem sscanf3_one {inp rest rest' : List Char} {v : ℚ} (h1 : scanFloat inp = some (v, rest))
    (h2 : advanceSpace rest = some rest') (h3 : scanFloat rest' = none) :
    sscanf3 inp = ⟨1, v, 0, 0⟩ := by
  simp only [sscanf3, h1, h2, Option.some_bind, h3]

/-- The scan of `1 1e400 3` stops at the range error of the second number. -/
theorem sscanf3_out_of_range : (sscanf3 "1 1e400 3".data).n = 1 := by
  have q1 : parseFloat "1".data = some (f64 (Decimal.toRat ⟨false, 1, 0⟩)) :=
    parseFloat_of_readFloat (by decide) (by rw [abs_le]; constructor <;> norm_num [Decimal.toRat])
  have q2 : parseFloat "1e400".data = none :=
    parseFloat_overflow (d := ⟨false, 1, 400⟩) (by decide)
      (by rw [abs_of_nonneg (by norm_num [Decimal.toRat])]; norm_num [Decimal.toRat])
  have u1 : nextToken "1 1e400 3".data = some ("1".data, " 1e400 3".data) := by decide
  have b1 : advanceSpace " 1e400 3".data = some "1e400 3".data := by decide
  have u2 : nextToken "1e400 3".data = some ("1e400".data, " 3".data) := by decide
  rw [sscanf3_one (scanFloat_of_token u1 q1) b1 (scanFloat_of_error u2 q2)]

/-- Every value of `f64` lies on the grid of `float64` values: a significand
below `2 ^ 53` times a power of two, the exponent at least -1074. -/
theorem f64_grid {y : ℚ} (hy : 0 ≤ y) :
    ∃ (k : ℕ) (q : ℤ), k < 2 ^ 53 ∧ -1074 ≤ q ∧ f64 y = (k : ℚ) * 2 ^ q := by
  rcases eq_or_lt_of_le hy with h | h
  · exact ⟨0, 0, by norm_num, by norm_num, by rw [← h, f64_zero]; simp⟩
  · have hL := Int.lt_zpow_succ_log_self (b := 2) (by norm_num) y
    simp only [Nat.cast_ofNat] at hL
    have hE1 : Int.log 2 y ≤ max (Int.log 2 y) (-1022) := le_max_left _ _
    have hE2 : -1022 ≤ max (Int.log 2 y) (-1022) := le_max_right _ _
    have e0 := f64_of_pos h
    generalize max (Int.log 2 y) (-1022) = E at hE1 hE2 e0
    have hq : (0 : ℚ) < 2 ^ (E - 52) := by positivity
    have hz : y / 2 ^ (E - 52) < 2 ^ (53 : ℤ) := by
      rw [div_lt_iff₀ hq, ← zpow_add₀ (by norm_num)]
      have : (2 : ℚ) ^ (Int.log 2 y + 1) ≤ 2 ^ (53 + (E - 52)) :=
        zpow_le_zpow_right₀ (by norm_num) (by omega)
      exact lt_of_lt_of_le hL this
    have er := roundHalfEven_err (z := y / 2 ^ (E - 52)) (by positivity)
    rw [abs_le] at er
    have h53 : (2 : ℚ) ^ (53 : ℤ) = ((2 ^ 53 : ℕ) : ℚ) := by norm_num
    rw [h53] at hz
    have hr : roundHalfEven (y / 2 ^ (E - 52)) ≤ 2 ^ 53 := by
      have : ((roundHalfEven (y / 2 ^ (E - 52)) : ℕ) : ℚ) < ((2 ^ 53 + 1 : ℕ) : ℚ) := by
        push_cast at hz ⊢
        linarith [er.2]
      have : roundHalfEven (y / 2 ^ (E - 52)) < 2 ^ 53 + 1 := by exact_mod_cast this
      omega
    rw [e0]
    rcases Nat.lt_or_ge (roundHalfEven (y / 2 ^ (E - 52))) (2 ^ 53) with c | c
    · exact ⟨_, E - 52, c, by omega, rfl⟩
    · have e : roundHalfEven (y / 2 ^ (E - 52)) = 2 ^ 53 := le_antisymm hr c
      refine ⟨1, E - 52 + 53, by norm_num, by omega, ?_⟩
      rw [e, zpow_add₀ (by norm_num)]
      push_cast
      norm_num
      ring

/-- The fractional part of a non-negative `float64` value is a `float64`
value, at most `1 - 2 ^ (-53)`. -/
theorem frac_of_grid (k : ℕ) (q : ℤ) (hk : k < 2 ^ 53) (hq : -1074 ≤ q) :
    f64 ((k : ℚ) * 2 ^ q - ⌊(k : ℚ) * 2 ^ q⌋) = (k : ℚ) * 2 ^ q - ⌊(k : ℚ) * 2 ^ q⌋ ∧
    (k : ℚ) * 2 ^ q - ⌊(k : ℚ) * 2 ^ q⌋ ≤ 1 - 2 ^ (-53 : ℤ) := by
  rcases le_or_lt 0 q with h | h
  · obtain ⟨n, rfl⟩ := Int.eq_ofNat_of_zero_le h
    have e : (k : ℚ) * 2 ^ ((n : ℕ) : ℤ) = ((k * 2 ^ n : ℕ) : ℚ) := by
      rw [zpow_natCast]; push_cast; ring
    rw [e, Int.floor_natCast]
    simp only [Int.cast_natCast, sub_self, f64_zero, true_and]
    norm_num
  · obtain ⟨n, hn⟩ : ∃ n : ℕ, -q = (n : ℤ) := ⟨(-q).toNat, (Int.toNat_of_nonneg (by omega)).symm⟩
    have hq' : q = -(n : ℤ) := by omega
    have hn1 : 1 ≤ n := by omega
    have p : (0 : ℚ) < 2 ^ n := by positivity
    have e : (k : ℚ) * 2 ^ q = (k : ℚ) / 2 ^ n := by
      rw [hq', zpow_neg, zpow_natCast]; ring
    obtain ⟨d, m, dm, ml, mk⟩ : ∃ d m : ℕ, 2 ^ n * d + m = k ∧ m < 2 ^ n ∧ m ≤ k :=
      ⟨k / 2 ^ n, k % 2 ^ n, Nat.div_add_mod k (2 ^ n), Nat.mod_lt _ (by positivity),
        Nat.mod_le _ _⟩
    have dmq : (k : ℚ) = 2 ^ n * (d : ℚ) + (m : ℚ) := by exact_mod_cast dm.symm
    have mlq : (m : ℚ) < 2 ^ n := by exact_mod_cast ml
    have m0 : (0 : ℚ) ≤ (m : ℚ) := Nat.cast_nonneg m
    have fl : ⌊(k : ℚ) / 2 ^ n⌋ = (d : ℤ) := by
      rw [Int.floor_eq_iff]
      constructor
      · rw [le_div_iff₀ p]; push_cast; nlinarith
      · rw [div_lt_iff₀ p]; push_cast; nlinarith
    have fr : (k : ℚ) / 2 ^ n - (d : ℚ) = (m : ℚ) * 2 ^ q := by
      rw [hq', zpow_neg, zpow_natCast]
      field_simp
      linarith
    rw [e, fl]
    simp only [Int.cast_natCast]
    rw [fr]
    constructor
    · have := f64_dyadic (m : ℤ) q
        (by rw [abs_of_nonneg (by positivity)]; exact_mod_cast lt_of_le_of_lt mk hk) hq
      simpa using this
    · have c53 : (2 : ℚ) ^ (-53 : ℤ) = 1 / 9007199254740992 := by norm_num
      have mk53 : (m : ℚ) + 1 ≤ 9007199254740992 := by
        have : m + 1 ≤ 2 ^ 53 := by omega
        exact_mod_cast this
      have ml1 : (m : ℚ) + 1 ≤ 2 ^ n := by
        have : m + 1 ≤ 2 ^ n := by omega
        exact_mod_cast this
      rw [hq', zpow_neg, zpow_natCast, c53, ← div_eq_mul_inv, div_le_iff₀ p]
      rcases le_or_lt n 53 with c | c
      · have : (2 : ℚ) ^ n ≤ 2 ^ 53 := pow_le_pow_right₀ (by norm_num) c
        generalize (2 : ℚ) ^ n = P at p ml1 this ⊢
        norm_num at this
        linarith
      · have : (2 : ℚ) ^ 54 ≤ 2 ^ n := pow_le_pow_right₀ (by norm_num) c
        generalize (2 : ℚ) ^ n = P at p ml1 this ⊢
        norm_num at this
        linarith

/-- The product by 60 of a `float64` fraction stays below 60 after rounding. -/
theorem f64_mul60_lt {a : ℚ} (h0 : 0 ≤ a) (h1 : a ≤ 1 - 2 ^ (-53 : ℤ)) :
    0 ≤ f64 (a * 60) ∧ f64 (a * 60) < 60 := by
  have c53 : (2 : ℚ) ^ (-53 : ℤ) = 1 / 9007199254740992 := by norm_num
  rw [c53] at h1
  have y0 : 0 ≤ a * 60 := by positivity
  refine ⟨f64_nonneg y0, ?_⟩
  rcases lt_or_le (a * 60) 32 with c | c
  · have hB : (2 : ℚ) ^ (-1022 : ℤ) ≤ 32 := by
      have h1 : (2 : ℚ) ^ (-1022 : ℤ) ≤ 1 := by
        rw [zpow_neg]; exact inv_le_one_of_one_le₀ (one_le_zpow₀ (by norm_num) (by norm_num))
      linarith
    have e := f64_err (y := a * 60) (B := 32) (by rw [abs_of_nonneg y0]; exact c.le) hB
    rw [abs_le, c53] at e
    linarith [e.2]
  · have yp : 0 < a * 60 := by linarith
    have hl : Int.log 2 (a * 60) = 5 := by
      have u : (5 : ℤ) ≤ Int.log 2 (a * 60) :=
        (Int.zpow_le_iff_le_log (b := 2) (by norm_num) yp).mp (by norm_num; linarith)
      have v : Int.log 2 (a * 60) < 5 + 1 :=
        (Int.lt_zpow_iff_log_lt (b := 2) (by norm_num) yp).mp (by norm_num; linarith)
      omega
    have er := roundHalfEven_err (z := a * 60 / 2 ^ (max (5 : ℤ) (-1022) - 52)) (by positivity)
    rw [f64_of_pos yp, hl]
    have q : (2 : ℚ) ^ (max (5 : ℤ) (-1022) - 52) = 1 / 140737488355328 := by norm_num
    rw [q] at er ⊢
    rw [abs_le] at er
    generalize (roundHalfEven (a * 60 / (1 / 140737488355328)) : ℚ) = R at er ⊢
    have : a * 60 / (1 / 140737488355328) = a * 60 * 140737488355328 := by ring
    rw [this] at er
    linarith [er.2]

/-- In `float64`, minutes and seconds of a non-negative `float64` hour value
stay below 60. -/
theorem hms64_nonneg_range {x : ℚ} (hx : 0 ≤ x) (hf : f64 x = x) :
    0 ≤ (hms64 x).2.1 ∧ (hms64 x).2.1 ≤ 59 ∧ 0 ≤ (hms64 x).2.2 ∧ (hms64 x).2.2 ≤ 59 := by
  obtain ⟨k, q, hk, hq, e⟩ := f64_grid hx
  rw [hf] at e
  have B := frac_of_grid k q hk hq
  rw [← e] at B
  have a0 : 0 ≤ x - (⌊x⌋ : ℚ) := sub_nonneg.mpr (Int.floor_le x)
  have C := f64_mul60_lt a0 B.2
  obtain ⟨k', q', hk', hq', e'⟩ := f64_grid (y := (x - (⌊x⌋ : ℚ)) * 60) (by positivity)
  have B' := frac_of_grid k' q' hk' hq'
  rw [← e'] at B'
  simp only [hms64, goInt_of_nonneg hx, B.1]
  generalize f64 ((x - (⌊x⌋ : ℚ)) * 60) = p at C B'
  rw [goInt_of_nonneg C.1, B'.1]
  have b0 : 0 ≤ p - (⌊p⌋ : ℚ) := sub_nonneg.mpr (Int.floor_le p)
  have C' := f64_mul60_lt b0 B'.2
  generalize f64 ((p - (⌊p⌋ : ℚ)) * 60) = r at C'
  rw [goInt_of_nonneg C'.1]
  have m1 : ⌊p⌋ < 60 := Int.floor_lt.mpr (by exact_mod_cast C.2)
  have s1 : ⌊r⌋ < 60 := Int.floor_lt.mpr (by exact_mod_cast C'.2)
  have m0 : 0 ≤ ⌊p⌋ := Int.floor_nonneg.mpr C.1
  have s0 : 0 ≤ ⌊r⌋ := Int.floor_nonneg.mpr C'.1
  omega

/-- In `float64`, minutes and seconds of a `float64` hour value never reach
60 in magnitude. -/
theorem hms64_abs_le {x : ℚ} (hf : f64 x = x) :
    |(hms64 x).2.1| ≤ 59 ∧ |(hms64 x).2.2| ≤ 59 := by
  rcases le_total 0 x with h | h
  · have k := hms64_nonneg_range h hf
    rw [abs_le, abs_le]
    omega
  · have hx : 0 ≤ -x := by linarith
    have hf' : f64 (-x) = -x := by rw [f64_neg, hf]
    have k := hms64_nonneg_range hx hf'
    rw [hms64_neg] at k
    simp only at k
    rw [abs_le, abs_le]
    omega

/-- The remainder of a `float64` value after truncation is a `float64`
value: the subtractions of the decomposition are exact. -/
theorem f64_frac_exact (y : ℚ) :
    f64 (f64 y - (goInt (f64 y) : ℚ)) = f64 y - (goInt (f64 y) : ℚ) := by
  have pos : ∀ z : ℚ, 0 ≤ z →
      f64 (f64 z - (goInt (f64 z) : ℚ)) = f64 z - (goInt (f64 z) : ℚ) := by
    intro z hz
    obtain ⟨k, q, hk, hq, e⟩ := f64_grid hz
    have B := frac_of_grid k q hk hq
    rw [← e] at B
    rw [goInt_of_nonneg (f64_nonneg hz)]
    exact B.1
  rcases le_total 0 y with h | h
  · exact pos y h
  · have k := pos (-y) (by linarith)
    rw [f64_neg, goInt_neg] at k
    have e : -f64 y - ((-goInt (f64 y) : ℤ) : ℚ) = -(f64 y - (goInt (f64 y) : ℚ)) := by
      push_cast; ring
    rw [e, f64_neg] at k
    exact neg_injective k

/-! ## The claims -/

/-- C1 (counterexample): at the instant 2000-01-01T00:00:00 UTC (Unix time
946684800, `ΔJ = 0`) and the valid west longitude 120 the computation yields
hours -1, minutes -20 and seconds -7; the fields are not in range for every
instant and every valid longitude. -/
theorem sidereal_range_fails_at_epoch :
    ¬ (∀ (now : ℤ) (lw : ℚ), -180 ≤ lw → lw ≤ 180 →
        0 ≤ (sidereal (deltaJ now) lw).1 ∧ (sidereal (deltaJ now) lw).1 ≤ 23 ∧
        0 ≤ (sidereal (deltaJ now) lw).2.1 ∧ (sidereal (deltaJ now) lw).2.1 ≤ 59 ∧
        0 ≤ (sidereal (deltaJ now) lw).2.2 ∧ (sidereal (deltaJ now) lw).2.2 ≤ 59) := by
  intro h
  have k := h 946684800 120 (by norm_num) (by norm_num)
  rw [deltaJ_t2000, sidereal_0_120] at k
  exact absurd k.1 (by decide)

/-- C1 (amended): for every instant from 2000-01-01T06:00:00 UTC on
(`ΔJ ≥ 1/4`) with `ΔJ` at most `10^11` days, and every valid west longitude
in `[-180, 180]`, the computation of `main` yields hours in `[0, 23]`,
minutes in `[0, 59]` and seconds in `[0, 59]`. -/
theorem sidereal_fields_in_range (now : ℤ) (lw : ℚ) (h1 : 1 / 4 ≤ deltaJ now)
    (h2 : deltaJ now ≤ 100000000000) (h3 : |lw| ≤ 180) :
    0 ≤ (sidereal (deltaJ now) lw).1 ∧ (sidereal (deltaJ now) lw).1 ≤ 23 ∧
    0 ≤ (sidereal (deltaJ now) lw).2.1 ∧ (sidereal (deltaJ now) lw).2.1 ≤ 59 ∧
    0 ≤ (sidereal (deltaJ now) lw).2.2 ∧ (sidereal (deltaJ now) lw).2.2 ≤ 59 :=
  sidereal_range (theta_nonneg h1 h2 (abs_le.mp h3).2)

/-- C1 (witness): the instant 2019-11-04T00:00:00 UTC and west longitude 73.5. -/
theorem sidereal_fields_in_range_witness :
    0 ≤ (sidereal (deltaJ 1572825600) 73.5).1 ∧ (sidereal (deltaJ 1572825600) 73.5).1 ≤ 23 ∧
    0 ≤ (sidereal (deltaJ 1572825600) 73.5).2.1 ∧ (sidereal (deltaJ 1572825600) 73.5).2.1 ≤ 59 ∧
    0 ≤ (sidereal (deltaJ 1572825600) 73.5).2.2 ∧ (sidereal (deltaJ 1572825600) 73.5).2.2 ≤ 59 :=
  sidereal_fields_in_range 1572825600 73.5 (by norm_num [deltaJ, t2000_eq])
    (by norm_num [deltaJ, t2000_eq]) (by norm_num [abs_le])

/-- C2: at the instant 2000-01-01T00:00:00 UTC, `ΔJ` is 0; with west longitude
0 the angle is `L0 = 99.967794687`, the fields are 6 hours, 39 minutes and
52 seconds, they are formatted as `06h39m52s` followed by a newline, and a
run at that instant with a sky file of longitude 0 writes exactly that line. -/
theorem epoch_greenwich_scenario :
    deltaJ (dateUnix 2000 1 1 0 0 0) = 0 ∧
    theta (deltaJ (dateUnix 2000 1 1 0 0 0)) 0 = L0 ∧ L0 = 99.967794687 ∧
    sidereal (deltaJ (dateUnix 2000 1 1 0 0 0)) 0 = (6, 39, 52) ∧
    sidLine 6 39 52 = "06h39m52s\n" ∧
    runMain {} ⟨fun _ => some "51.48 0.0 46.0\n", dateUnix 2000 1 1 0 0 0,
        dateUnix 2000 1 1 0 0 0⟩ = ⟨0, ["06h39m52s\n"], []⟩ := by
  have d : dateUnix 2000 1 1 0 0 0 = 946684800 := by decide
  have l : sidLine 6 39 52 = "06h39m52s\n" := by decide
  rw [d, deltaJ_t2000]
  refine ⟨rfl, by rw [theta_zero, sub_zero], rfl, sidereal_0_0, l, ?_⟩
  have sc := sscanf3_greenwich
  have wl : westLongitude {} (⟨fun _ => some "51.48 0.0 46.0\n", 946684800, 946684800⟩ : World)
      { logPrefix := "sid: " } = Result.ret 0 { logPrefix := "sid: " } := by
    simp [westLongitude, sc, Run.pure]
  rw [runMain_of_longitude wl]
  simp only [deltaJ_t2000, sidereal_0_0, l]
  rfl

/-- C3: for every non-zero value of the `-long` flag, whatever the sky file
(any path, readable or not, any content) and whatever the process state,
`westLongitude` returns exactly the flag value without exiting and without
writing anything; two environments give the same result. -/
theorem override_returned_directly (fl : Flags) (w w' : World) (p : Proc)
    (h : fl.wLong ≠ 0) :
    westLongitude fl w p = Result.ret fl.wLong p ∧
    westLongitude fl w' p = westLongitude fl w p := by
  rw [westLongitude_override w p h, westLongitude_override w' p h]
  exact ⟨rfl, rfl⟩

/-- C3 (witness): `-long 73.5` with no readable sky file. -/
theorem override_returned_directly_witness :
    westLongitude { wLong := 73.5 } ⟨fun _ => none, 0, 0⟩ {} = Result.ret 73.5 {} ∧
    westLongitude { wLong := 73.5 } ⟨fun _ => some "x", 0, 0⟩ {} =
      westLongitude { wLong := 73.5 } ⟨fun _ => none, 0, 0⟩ {} :=
  override_returned_directly { wLong := 73.5 } ⟨fun _ => none, 0, 0⟩ ⟨fun _ => some "x", 0, 0⟩ {}
    (by norm_num)

/-- C4: with the `-long` value exactly 0, `westLongitude` goes to the sky
file: it exits (status 1, one message on standard error) exactly when the
file cannot be read or `Sscanf` stores fewer than three numbers, and
otherwise returns the second number scanned; an unreadable file always
makes it exit. -/
theorem zero_override_reads_file (fl : Flags) (w : World) (p : Proc) (h : fl.wLong = 0) :
    ((∃ s q, westLongitude fl w p = Result.exit s q) ↔
      (w.readFile fl.sky = none ∨
        ∃ file, w.readFile fl.sky = some file ∧ (sscanf3 file.data).n < 3)) ∧
    (w.readFile fl.sky = none →
      westLongitude fl w p = Result.exit 1
        { p with stderr := p.stderr ++
            [p.logPrefix ++ "can't read sky file; set -long for longitude" ++ "\n"] }) ∧
    (∀ file, w.readFile fl.sky = some file → (sscanf3 file.data).n < 3 →
      westLongitude fl w p = Result.exit 1
        { p with stderr := p.stderr ++
            [p.logPrefix ++ "can't parse sky file; set -long for longitude" ++ "\n"] }) ∧
    (∀ file, w.readFile fl.sky = some file → (sscanf3 file.data).n = 3 →
      westLongitude fl w p = Result.ret (sscanf3 file.data).long p) := by
  refine ⟨?_, fun hf => westLongitude_unreadable p h hf,
    fun file hf hn => westLongitude_unparsable p h hf (by omega),
    fun file hf hn => westLongitude_parsed p h hf hn⟩
  constructor
  · rintro ⟨s, q, e⟩
    cases hf : w.readFile fl.sky with
    | none => exact Or.inl rfl
    | some file =>
      refine Or.inr ⟨file, rfl, ?_⟩
      by_contra hn
      have h3 : (sscanf3 file.data).n = 3 := by
        have := sscanf3_n_le file.data
        omega
      rw [westLongitude_parsed p h hf h3] at e
      cases e
  · rintro (hf | ⟨file, hf, hn⟩)
    · exact ⟨_, _, westLongitude_unreadable p h hf⟩
    · exact ⟨_, _, westLongitude_unparsable p h hf (by omega)⟩

/-- C4 (witness): `-long 0` with an unreadable sky file exits with status 1. -/
theorem zero_override_reads_file_witness :
    westLongitude { wLong := 0 } ⟨fun _ => none, 0, 0⟩ { logPrefix := "sid: " } =
      Result.exit 1
        { logPrefix := "sid: ", stderr := ["sid: can't read sky file; set -long for longitude\n"] } :=
  (zero_override_reads_file { wLong := 0 } ⟨fun _ => none, 0, 0⟩ { logPrefix := "sid: " }
    rfl).2.1 rfl

/-- C6: when longitude resolution fails (the `-long` value is 0 and the sky
file is unreadable or scans to fewer than three numbers), the run ends with
exit status 1, standard output empty and one message on standard error
asking to set `-long`, whatever the `-julian` flag. -/
theorem fatal_longitude_prints_nothing (fl : Flags) (w : World) (h : fl.wLong = 0)
    (hf : w.readFile fl.sky = none ∨
      ∃ file, w.readFile fl.sky = some file ∧ (sscanf3 file.data).n < 3) :
    (runMain fl w).stdout = [] ∧ (runMain fl w).status = 1 ∧
    ((runMain fl w).stderr = ["sid: can't read sky file; set -long for longitude\n"] ∨
      (runMain fl w).stderr = ["sid: can't parse sky file; set -long for longitude\n"]) := by
  rcases hf with hf | ⟨file, hf, hn⟩
  · rw [runMain_of_exit (westLongitude_unreadable _ h hf)]
    exact ⟨rfl, rfl, Or.inl (by decide)⟩
  · rw [runMain_of_exit (westLongitude_unparsable _ h hf (by omega))]
    exact ⟨rfl, rfl, Or.inr (by decide)⟩

/-- C6 (witness): `-julian` set, no `-long`, and a sky file with two numbers. -/
theorem fatal_longitude_prints_nothing_witness :
    (runMain { julian := true } ⟨fun _ => some "10.0 73.5", 0, 0⟩).stdout = [] ∧
    (runMain { julian := true } ⟨fun _ => some "10.0 73.5", 0, 0⟩).status = 1 ∧
    ((runMain { julian := true } ⟨fun _ => some "10.0 73.5", 0, 0⟩).stderr =
        ["sid: can't read sky file; set -long for longitude\n"] ∨
      (runMain { julian := true } ⟨fun _ => some "10.0 73.5", 0, 0⟩).stderr =
        ["sid: can't parse sky file; set -long for longitude\n"]) :=
  fatal_longitude_prints_nothing { julian := true } ⟨fun _ => some "10.0 73.5", 0, 0⟩ rfl
    (Or.inr ⟨"10.0 73.5", rfl, by
      have t1 : nextToken "10.0 73.5".data = some ("10.0".data, " 73.5".data) := by decide
      have a1 : advanceSpace " 73.5".data = some "73.5".data := by decide
      have t2 : nextToken "73.5".data = some ("73.5".data, []) := by decide
      have a2 : advanceSpace [] = some [] := by decide
      have t3 : nextToken [] = none := by decide
      have p1 := parseFloat_ten
      have p2 : parseFloat "73.5".data = some (f64 (Decimal.toRat ⟨false, 735, -1⟩)) :=
        parseFloat_of_readFloat (by decide)
          (by rw [abs_le]; constructor <;> norm_num [Decimal.toRat])
      simp only [sscanf3, scanFloat, t1, t2, t3, a1, a2, p1, p2, Option.map, Option.bind]
      decide⟩)

/-- C7 (counterexample): the value printed is computed in `int64` and
`float64`, not exactly. At the clock reading 9223372036854775807 (the largest
`int64`, an instant after the Julian epoch) the difference of seconds wraps
to -9223371825988015809 and the line printed is
`Julian date: -106751988726713.16`: a negative value at a future instant.
At 2026-01-01T03:14:24 UTC (Unix time 1767237264) the day count is
2461041.635 and prints as `.64`, while the value the program divides out is
the nearest `float64`, just below it, and the line printed ends in `.63`. -/
theorem julian_date_wraps_and_rounds :
    dateUnix (-4713) 11 24 12 0 0 ≤ 9223372036854775807 ∧
    julianSeconds 9223372036854775807 = -9223371825988015809 ∧
    julianDate 9223372036854775807 < 0 ∧
    julianLine (julianDate 9223372036854775807) = "Julian date: -106751988726713.16\n" ∧
    julianDayCount 1767237264 = 2461041.635 ∧
    julianDate 1767237264 ≠ julianDayCount 1767237264 ∧
    julianLine (julianDayCount 1767237264) = "Julian date: 2461041.64\n" ∧
    julianLine (julianDate 1767237264) = "Julian date: 2461041.63\n" := by
  have c : julianDayCount 1767237264 = 2461041.635 := by
    simp only [julianDayCount, tJulian_eq]; norm_num
  refine ⟨by decide, by decide, ?_, ?_, c, ?_, ?_, ?_⟩
  · rw [julianDate_wrapped]; norm_num
  · rw [julianDate_wrapped]
    unfold julianLine
    rw [fmtFloat2_eval_neg 10675198872671316 (by norm_num) (by norm_num) (by norm_num)]
    decide
  · rw [julianDate_2026, c]; norm_num
  · have t := roundHalfEven_tie 246104163
    have e : |(2461041.635 : ℚ)| * 100 = ((246104163 : ℕ) : ℚ) + 1 / 2 := by
      rw [abs_of_nonneg (by norm_num)]; norm_num
    have n : ¬ ((2461041.635 : ℚ) < 0) := by norm_num
    rw [c]
    unfold julianLine fmtFloat2
    simp only [e, t, n, ↓reduceIte]
    decide
  · rw [julianDate_2026]
    unfold julianLine
    rw [fmtFloat2_eval 246104163 (by norm_num) (by norm_num) (by norm_num)]
    decide

/-- C7 (amended): a run with `-julian` whose longitude resolves (from `-long`
or from the sky file) ends with status 0 and prints, as its second and last
line, `Julian date: ` followed by the `%.2f` text of `julianDate` at the
second clock reading: an optional minus sign, the integer digits, a point and
exactly two digits, denoting the hundredths nearest to the value. The Julian
epoch is Unix time -210866760000, and the exact day count
`(T - epoch) / 86400` equals `ΔJ(T) + 2451544.5`. For every clock reading `T`
whose difference from the epoch does not overflow `int64`
(`T ≤ 9223371825988015807`), the value printed is that difference converted
to `float64` and divided by 86400 in `float64`; while the difference is below
`2^53` in magnitude it is the day count rounded once to `float64`. It is
exactly 2451544.5 at 2000-01-01T00:00:00 UTC, where the line is
`Julian date: 2451544.50`, and it is not negative for any instant from the
Julian epoch up to that bound. -/
theorem julian_line_is_rounded_day_count (fl : Flags) (w : World) (T : ℤ) (jd : ℚ) :
    (fl.julian = true →
      (fl.wLong ≠ 0 ∨ ∃ file, w.readFile fl.sky = some file ∧ (sscanf3 file.data).n = 3) →
      (runMain fl w).status = 0 ∧
      (runMain fl w).stdout.tail = [julianLine (julianDate w.now₂)]) ∧
    julianLine jd = String.mk ("Julian date: ".data ++ (if jd < 0 then ['-'] else []) ++
      Nat.toDigits 10 (roundHalfEven (|jd| * 100) / 100) ++
      ['.', Nat.digitChar (roundHalfEven (|jd| * 100) % 100 / 10),
        Nat.digitChar (roundHalfEven (|jd| * 100) % 10), '\n']) ∧
    |(roundHalfEven (|jd| * 100) : ℚ) / 100 - abs jd| ≤ 1 / 200 ∧
    dateUnix (-4713) 11 24 12 0 0 = -210866760000 ∧
    julianDayCount T = ((T : ℚ) - ((dateUnix (-4713) 11 24 12 0 0 : ℤ) : ℚ)) / 86400 ∧
    julianDayCount T = deltaJ T + 2451544.5 ∧
    (-9223372036854775808 ≤ T → T ≤ 9223371825988015807 →
      julianDate T = f64 (f64 ((T - dateUnix (-4713) 11 24 12 0 0 : ℤ) : ℚ) / 86400)) ∧
    (|T - dateUnix (-4713) 11 24 12 0 0| < 2 ^ 53 → julianDate T = f64 (julianDayCount T)) ∧
    julianDate (dateUnix 2000 1 1 0 0 0) = 2451544.5 ∧
    julianLine (julianDate (dateUnix 2000 1 1 0 0 0)) = "Julian date: 2451544.50\n" ∧
    (dateUnix (-4713) 11 24 12 0 0 ≤ T → T ≤ 9223371825988015807 → 0 ≤ julianDate T) := by
  have d0 : dateUnix (-4713) 11 24 12 0 0 = -210866760000 := by decide
  have d1 : dateUnix 2000 1 1 0 0 0 = 946684800 := by decide
  rw [d0, d1]
  refine ⟨?_, ?_, ?_, rfl, ?_, ?_, ?_, ?_, julianDate_t2000, ?_, ?_⟩
  · intro hj hl
    have ok : ∃ lw, westLongitude fl w { logPrefix := "sid: " }
        = Result.ret lw { logPrefix := "sid: " } := by
      by_cases h0 : fl.wLong = 0
      · rcases hl with hl | ⟨file, hf, hn⟩
        · exact absurd h0 hl
        · exact ⟨_, westLongitude_parsed _ h0 hf hn⟩
      · exact ⟨_, westLongitude_override w _ h0⟩
    obtain ⟨lw, hw⟩ := ok
    rw [runMain_of_longitude hw, hj]
    exact ⟨rfl, rfl⟩
  · have hr : roundHalfEven (|jd| * 100) % 100 < 100 := Nat.mod_lt _ (by norm_num)
    have e := fmtInteger_two_digits (a := ((roundHalfEven (|jd| * 100) % 100 : ℕ) : ℤ))
      (by positivity) (by omega)
    have q1 : (((roundHalfEven (|jd| * 100) % 100 : ℕ) : ℤ) / 10).toNat
        = roundHalfEven (|jd| * 100) % 100 / 10 := by omega
    have q2 : (((roundHalfEven (|jd| * 100) % 100 : ℕ) : ℤ) % 10).toNat
        = roundHalfEven (|jd| * 100) % 10 := by omega
    rw [q1, q2] at e
    unfold julianLine fmtFloat2
    simp only [e]
    split <;> simp
  · have h := roundHalfEven_err (z := |jd| * 100) (by positivity)
    rw [abs_le] at h ⊢
    constructor <;> linarith [h.1, h.2]
  · simp [julianDayCount, tJulian_eq]
  · simp only [julianDayCount, deltaJ, tJulian_eq, t2000_eq]; push_cast; ring
  · intro h1 h2
    unfold julianDate
    rw [julianSeconds_of_no_wrap h1 h2, sub_neg_eq_add]
  · intro h
    rw [sub_neg_eq_add] at h
    exact julianDate_of_small h
  · rw [julianDate_t2000]
    unfold julianLine
    rw [fmtFloat2_eval 245154450 (by norm_num) (by norm_num) (by norm_num)]
    decide
  · intro h1 h2
    exact julianDate_nonneg h1 h2

/-- C7 (witness): `-julian` with the sky file `51.48 0.0 46.0` at
2026-01-01T03:14:24 UTC. -/
theorem julian_line_is_rounded_day_count_witness :
    ((runMain { julian := true }
        ⟨fun _ => some "51.48 0.0 46.0\n", 1767237264, 1767237264⟩).status = 0 ∧
      (runMain { julian := true }
        ⟨fun _ => some "51.48 0.0 46.0\n", 1767237264, 1767237264⟩).stdout.tail
        = [julianLine (julianDate 1767237264)]) ∧
    julianDate 1767237264 = f64 (julianDayCount 1767237264) ∧ 0 ≤ julianDate 1767237264 :=
  have k := julian_line_is_rounded_day_count { julian := true }
    ⟨fun _ => some "51.48 0.0 46.0\n", 1767237264, 1767237264⟩ 1767237264 0
  ⟨k.1 rfl (Or.inr ⟨"51.48 0.0 46.0\n", rfl, by rw [sscanf3_greenwich]⟩),
    k.2.2.2.2.2.2.2.1 (by decide), k.2.2.2.2.2.2.2.2.2.2 (by decide) (by decide)⟩

/-- C8: `math.Mod(θ, 360)` as used in `main` is the truncating remainder: for
every `θ` the reduced value `r` has `|r| < 360`, `θ - r` is `360 * trunc(θ/360)`,
an integer multiple of 360, and `r` is zero or has the sign of `θ`. At
2000-01-01T00:00:00 UTC (`ΔJ = 0`) with west longitude 180 the angle is
negative, so are the reduced angle and the hours, minutes and seconds
(-5, -20, -7), and the run prints `-05h-20m-07s`. -/
theorem mod_keeps_sign (th : ℚ) :
    (|mathMod th 360| < 360 ∧
      th - mathMod th 360 = 360 * (goInt (th / 360) : ℚ) ∧
      (mathMod th 360 = 0 ∨ (0 < mathMod th 360 ∧ 0 < th) ∨ (mathMod th 360 < 0 ∧ th < 0))) ∧
    deltaJ (dateUnix 2000 1 1 0 0 0) = 0 ∧
    theta (deltaJ (dateUnix 2000 1 1 0 0 0)) 180 < 0 ∧
    mathMod (theta (deltaJ (dateUnix 2000 1 1 0 0 0)) 180) 360 < 0 ∧
    sidereal (deltaJ (dateUnix 2000 1 1 0 0 0)) 180 = (-5, -20, -7) ∧
    runMain { wLong := 180 } ⟨fun _ => none, dateUnix 2000 1 1 0 0 0, dateUnix 2000 1 1 0 0 0⟩
      = ⟨0, ["-05h-20m-07s\n"], []⟩ := by
  have d1 : dateUnix 2000 1 1 0 0 0 = 946684800 := by decide
  have l : sidLine (-5) (-20) (-7) = "-05h-20m-07s\n" := by decide
  rw [d1, deltaJ_t2000, theta_zero]
  refine ⟨⟨?_, ?_, ?_⟩, rfl, by norm_num [L0], ?_, sidereal_0_180, ?_⟩
  · rcases le_total 0 th with h | h
    · obtain ⟨a, b⟩ := mathMod_nonneg h
      rw [abs_of_nonneg a]; exact b
    · obtain ⟨a, b⟩ := mathMod_nonpos h
      rw [abs_of_nonpos b]; linarith
  · simp only [mathMod]; ring
  · rcases lt_trichotomy th 0 with h | h | h
    · obtain ⟨a, b⟩ := mathMod_nonpos h.le
      rcases eq_or_lt_of_le b with e | e
      · exact Or.inl e
      · exact Or.inr (Or.inr ⟨e, h⟩)
    · subst h; left; simp [mathMod, goInt]
    · obtain ⟨a, b⟩ := mathMod_nonneg h.le
      rcases eq_or_lt_of_le a with e | e
      · exact Or.inl e.symm
      · exact Or.inr (Or.inl ⟨e, h⟩)
  · rw [mathMod_small] <;> norm_num [L0]
  · have wl : westLongitude { wLong := 180 } (⟨fun _ => none, 946684800, 946684800⟩ : World)
        { logPrefix := "sid: " } = Result.ret 180 { logPrefix := "sid: " } :=
      westLongitude_override _ _ (by norm_num)
    rw [runMain_of_longitude wl]
    simp only [deltaJ_t2000, sidereal_0_180, l]
    rfl

/-- C9 (counterexample): the decomposition of `main` runs in `float64`, where
each product by 60 is rounded. For the hour value `6004799503160661 / 2^54`
(a `float64` just below 1/3) the product by 60 rounds up to exactly 20, so the
fields are 0 hours, 20 minutes, 0 seconds, in all 1200 seconds, while
`trunc(3600 * x)` is 1199: the identity fails, and the minutes shown are not
the truncation of the exact product, which is below 20. -/
theorem decomposition_rounds_products :
    f64 (6004799503160661 / 2 ^ 54) = 6004799503160661 / 2 ^ 54 ∧
    (0 : ℚ) ≤ 6004799503160661 / 2 ^ 54 ∧ (6004799503160661 / 2 ^ 54 : ℚ) < 24 ∧
    hms64 (6004799503160661 / 2 ^ 54) = (0, 20, 0) ∧
    goInt (60 * (6004799503160661 / 2 ^ 54)) = 19 ∧
    goInt (3600 * (6004799503160661 / 2 ^ 54)) = 1199 ∧
    3600 * (hms64 (6004799503160661 / 2 ^ 54)).1 + 60 * (hms64 (6004799503160661 / 2 ^ 54)).2.1
      + (hms64 (6004799503160661 / 2 ^ 54)).2.2 ≠ goInt (3600 * (6004799503160661 / 2 ^ 54)) := by
  have hx : f64 (6004799503160661 / 2 ^ 54) = 6004799503160661 / 2 ^ 54 := by
    have k := f64_dyadic 6004799503160661 (-54) (by norm_num) (by norm_num)
    have e : ((6004799503160661 : ℤ) : ℚ) * 2 ^ (-54 : ℤ) = 6004799503160661 / 2 ^ 54 := by
      norm_num
    rwa [e] at k
  have g0 : goInt (6004799503160661 / 2 ^ 54) = 0 :=
    goInt_eq_of_nonneg (by norm_num) (by norm_num) (by norm_num)
  have p : f64 (6004799503160661 / 2 ^ 54 * 60) = 20 := by
    have k := f64_eval (y := (6004799503160661 : ℚ) / 2 ^ 54 * 60) 4 5629499534213120
      (by norm_num) (by norm_num) (by norm_num) (by norm_num) (by norm_num) (by norm_num)
    rw [k]; norm_num
  have g20 : goInt 20 = 20 := goInt_eq_of_nonneg (by norm_num) (by norm_num) (by norm_num)
  have gz : goInt 0 = 0 := goInt_eq_of_nonneg (by norm_num) (by norm_num) (by norm_num)
  have h : hms64 (6004799503160661 / 2 ^ 54) = (0, 20, 0) := by
    simp only [hms64, g0, Int.cast_zero, sub_zero, hx, p, g20, Int.cast_ofNat, sub_self,
      f64_zero, zero_mul, gz]
  have g : goInt (3600 * (6004799503160661 / 2 ^ 54)) = 1199 :=
    goInt_eq_of_nonneg (by norm_num) (by norm_num) (by norm_num)
  refine ⟨hx, by norm_num, by norm_num, h, ?_, g, ?_⟩
  · exact goInt_eq_of_nonneg (by norm_num) (by norm_num) (by norm_num)
  · rw [h, g]; decide

/-- C9 (amended): for every `float64` hour value `x` within the `int64`
range, the decomposition of `main` truncates toward zero at each step
(`trunc` never moves away from zero and changes its argument by less than 1),
but each product by 60 is rounded to `float64` before it is truncated (the
two subtractions are exact): hours is `trunc(x)`, minutes is the truncation
of the rounded product `60 * (x - hours)`, seconds the truncation of the
rounded product of 60 and the remainder of that product. The total
`3600 * hours + 60 * minutes + seconds` is within one second of
`trunc(3600 * x)`, and equals it whenever the two products are exact in
`float64`, in which case the fields are those of the exact decomposition.
Minutes and seconds never reach 60 in magnitude, and a value in `[59, 60)`,
such as 59.999999, truncates to 59. -/
theorem decomposition_truncates_rounded (x : ℚ) (hf : f64 x = x) (hx : |x| < 2 ^ 63) :
    (|((goInt x : ℤ) : ℚ)| ≤ |x| ∧ |x - (goInt x : ℚ)| < 1) ∧
    |(((hms64 x).1 : ℤ) : ℚ)| < 2 ^ 63 ∧
    (hms64 x).1 = goInt x ∧
    (hms64 x).2.1 = goInt (f64 ((x - (goInt x : ℚ)) * 60)) ∧
    (hms64 x).2.2 =
      goInt (f64 ((f64 ((x - (goInt x : ℚ)) * 60) - ((hms64 x).2.1 : ℚ)) * 60)) ∧
    |3600 * (hms64 x).1 + 60 * (hms64 x).2.1 + (hms64 x).2.2 - goInt (3600 * x)| ≤ 1 ∧
    (f64 ((x - (goInt x : ℚ)) * 60) = (x - (goInt x : ℚ)) * 60 →
      f64 (((x - (goInt x : ℚ)) * 60 - (goInt ((x - (goInt x : ℚ)) * 60) : ℚ)) * 60)
        = ((x - (goInt x : ℚ)) * 60 - (goInt ((x - (goInt x : ℚ)) * 60) : ℚ)) * 60 →
      hms64 x = hms x ∧
      3600 * (hms64 x).1 + 60 * (hms64 x).2.1 + (hms64 x).2.2 = goInt (3600 * x)) ∧
    |(hms64 x).2.1| ≤ 59 ∧ |(hms64 x).2.2| ≤ 59 ∧
    (∀ y : ℚ, 59 ≤ y → y < 60 → goInt y = 59) ∧ goInt 59.999999 = 59 := by
  have e1 : f64 (x - (goInt x : ℚ)) = x - (goInt x : ℚ) := by
    have k := f64_frac_exact x
    rwa [hf] at k
  have e3 := f64_frac_exact ((x - (goInt x : ℚ)) * 60)
  have m : (hms64 x).2.1 = goInt (f64 ((x - (goInt x : ℚ)) * 60)) := by
    simp only [hms64, e1]
  refine ⟨goInt_abs_le x, lt_of_le_of_lt (goInt_abs_le x).1 hx, rfl, m, ?_, hms64_close x,
    ?_, (hms64_abs_le hf).1, (hms64_abs_le hf).2, ?_, ?_⟩
  · rw [m]
    simp only [hms64, e1, e3]
  · intro e2 e4
    rw [e2] at e3
    have e := hms64_of_exact x e1 e2 e3 e4
    exact ⟨e, by rw [e]; exact hms_sum x⟩
  · intro y h1 h2
    exact goInt_eq_of_nonneg (by linarith) (by exact_mod_cast h1) (by norm_num; linarith)
  · apply goInt_eq_of_nonneg <;> norm_num

/-- C9 (witness): the hour value `127 / 128`, whose decomposition is exact:
0 hours, 59 minutes, 31 seconds, in all `trunc(3571.875)` seconds. -/
theorem decomposition_truncates_rounded_witness :
    hms64 (127 / 128) = (0, 59, 31) ∧
    3600 * (hms64 (127 / 128)).1 + 60 * (hms64 (127 / 128)).2.1 + (hms64 (127 / 128)).2.2
      = goInt (3600 * (127 / 128)) := by
  have g0 : goInt (127 / 128) = 0 :=
    goInt_eq_of_nonneg (by norm_num) (by norm_num) (by norm_num)
  have g1 : goInt ((127 / 128 - ((0 : ℤ) : ℚ)) * 60) = 59 :=
    goInt_eq_of_nonneg (by norm_num) (by norm_num) (by norm_num)
  have a0 : f64 (127 / 128) = 127 / 128 := by
    have k := f64_dyadic 127 (-7) (by norm_num) (by norm_num)
    have e : ((127 : ℤ) : ℚ) * 2 ^ (-7 : ℤ) = 127 / 128 := by norm_num
    rwa [e] at k
  have a2 : f64 ((127 / 128 - ((0 : ℤ) : ℚ)) * 60) = (127 / 128 - ((0 : ℤ) : ℚ)) * 60 := by
    have k := f64_dyadic 1905 (-5) (by norm_num) (by norm_num)
    have e : ((1905 : ℤ) : ℚ) * 2 ^ (-5 : ℤ) = (127 / 128 - ((0 : ℤ) : ℚ)) * 60 := by norm_num
    rwa [e] at k
  have a4 : f64 (((127 / 128 - ((0 : ℤ) : ℚ)) * 60 - ((59 : ℤ) : ℚ)) * 60)
      = ((127 / 128 - ((0 : ℤ) : ℚ)) * 60 - ((59 : ℤ) : ℚ)) * 60 := by
    have k := f64_dyadic 255 (-3) (by norm_num) (by norm_num)
    have e : ((255 : ℤ) : ℚ) * 2 ^ (-3 : ℤ)
        = ((127 / 128 - ((0 : ℤ) : ℚ)) * 60 - ((59 : ℤ) : ℚ)) * 60 := by norm_num
    rwa [e] at k
  have k := decomposition_truncates_rounded (127 / 128) a0
    (by rw [abs_of_nonneg (by norm_num)]; norm_num)
  rw [g0, g1] at k
  have v : hms (127 / 128) = (0, 59, 31) := by
    apply hms_eval_nonneg <;> norm_num
  have r := k.2.2.2.2.2.2.1 a2 a4
  exact ⟨r.1.trans v, r.2⟩

/-- C10: whenever the unreduced angle `θ` is not negative, hours are in
`[0, 23]`, minutes and seconds in `[0, 59]`, and the printed line is two
digits, `h`, two digits, `m`, two digits, `s` (nine characters) and a newline;
and `θ` is not negative for every instant from 2000-01-02T00:00:00 UTC to
the end of the year 3000 and every west longitude in `[-180, 180]`. -/
theorem nonneg_angle_gives_clock_fields (dJ lw : ℚ) (now : ℤ) :
    (0 ≤ theta dJ lw →
      (0 ≤ (sidereal dJ lw).1 ∧ (sidereal dJ lw).1 ≤ 23 ∧
        0 ≤ (sidereal dJ lw).2.1 ∧ (sidereal dJ lw).2.1 ≤ 59 ∧
        0 ≤ (sidereal dJ lw).2.2 ∧ (sidereal dJ lw).2.2 ≤ 59) ∧
      sidLine (sidereal dJ lw).1 (sidereal dJ lw).2.1 (sidereal dJ lw).2.2 =
        String.mk [Nat.digitChar ((sidereal dJ lw).1 / 10).toNat,
          Nat.digitChar ((sidereal dJ lw).1 % 10).toNat, 'h',
          Nat.digitChar ((sidereal dJ lw).2.1 / 10).toNat,
          Nat.digitChar ((sidereal dJ lw).2.1 % 10).toNat, 'm',
          Nat.digitChar ((sidereal dJ lw).2.2 / 10).toNat,
          Nat.digitChar ((sidereal dJ lw).2.2 % 10).toNat, 's', '\n'] ∧
      (sidLine (sidereal dJ lw).1 (sidereal dJ lw).2.1 (sidereal dJ lw).2.2).length = 10) ∧
    (dateUnix 2000 1 2 0 0 0 ≤ now → now ≤ dateUnix 3000 12 31 23 59 59 →
      -180 ≤ lw → lw ≤ 180 → 0 ≤ theta (deltaJ now) lw) := by
  constructor
  · intro h
    obtain ⟨h0, h1, m0, m1, s0, s1⟩ := sidereal_range h
    have e : sidLine (sidereal dJ lw).1 (sidereal dJ lw).2.1 (sidereal dJ lw).2.2 =
        String.mk [Nat.digitChar ((sidereal dJ lw).1 / 10).toNat,
          Nat.digitChar ((sidereal dJ lw).1 % 10).toNat, 'h',
          Nat.digitChar ((sidereal dJ lw).2.1 / 10).toNat,
          Nat.digitChar ((sidereal dJ lw).2.1 % 10).toNat, 'm',
          Nat.digitChar ((sidereal dJ lw).2.2 / 10).toNat,
          Nat.digitChar ((sidereal dJ lw).2.2 % 10).toNat, 's', '\n'] := by
      rw [sidLine, fmtInteger_two_digits h0 (by omega), fmtInteger_two_digits m0 (by omega),
        fmtInteger_two_digits s0 (by omega)]
      rfl
    refine ⟨⟨h0, h1, m0, m1, s0, s1⟩, e, ?_⟩
    rw [e]; rfl
  · intro a b _ d
    have d1 : dateUnix 2000 1 2 0 0 0 = 946771200 := by decide
    have d2 : dateUnix 3000 12 31 23 59 59 = 32535215999 := by decide
    rw [d1] at a
    rw [d2] at b
    have a' : (946771200 : ℚ) ≤ (now : ℚ) := by exact_mod_cast a
    have b' : (now : ℚ) ≤ 32535215999 := by exact_mod_cast b
    apply theta_nonneg _ _ d
    · simp only [deltaJ, t2000_eq]; push_cast; rw [le_div_iff₀ (by norm_num)]; linarith
    · simp only [deltaJ, t2000_eq]; push_cast; rw [div_le_iff₀ (by norm_num)]; linarith

/-- C10 (witness): the instant 2019-11-04T00:00:00 UTC and west longitude 73.5. -/
theorem nonneg_angle_gives_clock_fields_witness :
    0 ≤ theta (deltaJ 1572825600) 73.5 ∧
    (0 ≤ (sidereal (deltaJ 1572825600) 73.5).1 ∧ (sidereal (deltaJ 1572825600) 73.5).1 ≤ 23) ∧
    (sidLine (sidereal (deltaJ 1572825600) 73.5).1 (sidereal (deltaJ 1572825600) 73.5).2.1
      (sidereal (deltaJ 1572825600) 73.5).2.2).length = 10 :=
  have k := nonneg_angle_gives_clock_fields (deltaJ 1572825600) 73.5 1572825600
  have t : 0 ≤ theta (deltaJ 1572825600) 73.5 :=
    k.2 (by decide) (by decide) (by norm_num) (by norm_num)
  ⟨t, ⟨(k.1 t).1.1, (k.1 t).1.2.1⟩, (k.1 t).2.2⟩

/-- C5 (counterexample): the record `10.0`, `73.5`, `100.0` with a newline
after each number is a whitespace-separated stream of exactly three numbers,
but `Sscanf` with the format `%f %f %f` stores only the first one (a newline
in the input does not match the blank of the format): `westLongitude` does
not return 73.5, and the run ends with the fatal "can't parse sky file". The
record `1 1e400 3` is three numbers on one line, but the second is beyond the
`float64` range, a conversion error: again one number is stored and the run
is fatal. -/
theorem newline_separated_record_rejected :
    (sscanf3 "10.0\n73.5\n100.0\n".data).n = 1 ∧
    westLongitude {} ⟨fun _ => some "10.0\n73.5\n100.0\n", 0, 0⟩ {} ≠ Result.ret 73.5 {} ∧
    runMain {} ⟨fun _ => some "10.0\n73.5\n100.0\n", 0, 0⟩ =
      ⟨1, [], ["sid: can't parse sky file; set -long for longitude\n"]⟩ ∧
    (sscanf3 "1 1e400 3".data).n = 1 ∧
    runMain {} ⟨fun _ => some "1 1e400 3", 0, 0⟩ =
      ⟨1, [], ["sid: can't parse sky file; set -long for longitude\n"]⟩ := by
  have t1 : nextToken "10.0\n73.5\n100.0\n".data = some ("10.0".data, "\n73.5\n100.0\n".data) := by
    decide
  have a1 : advanceSpace "\n73.5\n100.0\n".data = none := by decide
  have p1 := parseFloat_ten
  have sc : (sscanf3 "10.0\n73.5\n100.0\n".data).n = 1 := by
    simp only [sscanf3, scanFloat, t1, a1, p1, Option.map, Option.bind]
  have sd := sscanf3_out_of_range
  refine ⟨sc, ?_, ?_, sd, ?_⟩
  · rw [westLongitude_unparsable (w := ⟨fun _ => some "10.0\n73.5\n100.0\n", 0, 0⟩) {} rfl rfl
      (by rw [sc]; decide)]
    intro h
    cases h
  · rw [runMain_of_exit (westLongitude_unparsable
      (w := ⟨fun _ => some "10.0\n73.5\n100.0\n", 0, 0⟩) _ rfl rfl (by rw [sc]; decide))]
    decide
  · rw [runMain_of_exit (westLongitude_unparsable
      (w := ⟨fun _ => some "1 1e400 3", 0, 0⟩) _ rfl rfl (by rw [sd]; decide))]
    decide

/-- C5 (amended): with no `-long` override, for every readable location
record that consists of three numbers in decimal notation (latitude, west
longitude, elevation; optional sign, digits with an optional fraction, an
optional `e` exponent), each within the `float64` range, on one line (blanks,
that is spaces other than the newline, may precede the first; at least one
blank separates consecutive numbers; after the third comes the end of the
file or text starting with a space, a newline included), `westLongitude`
returns the `float64` nearest to the number that the second numeral denotes,
whatever the first and the third are. -/
theorem record_on_one_line_gives_longitude (fl : Flags) (w : World) (p : Proc)
    (b0 b1 b2 rest : List Char) (lat long elev : Numeral)
    (h : fl.wLong = 0)
    (hf : w.readFile fl.sky = some (String.mk (recordText b0 lat b1 long b2 elev rest)))
    (h0 : ∀ b ∈ b0, isBlank b = true) (h1 : ∀ b ∈ b1, isBlank b = true)
    (h2 : ∀ b ∈ b2, isBlank b = true) (n1 : b1 ≠ []) (n2 : b2 ≠ [])
    (wlat : lat.WellFormed) (wlong : long.WellFormed) (welev : elev.WellFormed)
    (rlat : lat.InRange) (rlong : long.InRange) (relev : elev.InRange)
    (hrest : ∀ c ∈ rest.head?, isSpace c = true) :
    westLongitude fl w p = Result.ret (f64 long.value) p := by
  have sc := sscanf3_record b0 b1 b2 rest lat long elev h0 h1 h2 n1 n2 wlat wlong welev
    rlat rlong relev hrest
  have := westLongitude_parsed p h hf (by rw [sc])
  rw [this, sc]

/-- C5 (witness): the record `10.0 73.5 100.0` resolves to the longitude 73.5. -/
theorem record_on_one_line_gives_longitude_witness :
    westLongitude {} ⟨fun _ => some "10.0 73.5 100.0", 0, 0⟩ {} = Result.ret 73.5 {} := by
  have d0 : natOfDigits [1, 0] = 10 := by decide
  have d1 : natOfDigits [7, 3] = 73 := by decide
  have d2 : natOfDigits [5] = 5 := by decide
  have d3 : natOfDigits [1, 0, 0] = 100 := by decide
  have d4 : natOfDigits [0] = 0 := by decide
  have v1 : Numeral.value ⟨Sign.absent, [1, 0], some [0], none⟩ = 10 := by
    norm_num [Numeral.value, Numeral.fracDigits, Numeral.expValue, d0, d4, Sign.neg]
  have v2 : Numeral.value ⟨Sign.absent, [7, 3], some [5], none⟩ = 73.5 := by
    norm_num [Numeral.value, Numeral.fracDigits, Numeral.expValue, d1, d2, Sign.neg]
  have v3 : Numeral.value ⟨Sign.absent, [1, 0, 0], some [0], none⟩ = 100 := by
    norm_num [Numeral.value, Numeral.fracDigits, Numeral.expValue, d3, d4, Sign.neg]
  have k := record_on_one_line_gives_longitude {} ⟨fun _ => some "10.0 73.5 100.0", 0, 0⟩ {}
    [] [' '] [' '] [] ⟨Sign.absent, [1, 0], some [0], none⟩
    ⟨Sign.absent, [7, 3], some [5], none⟩ ⟨Sign.absent, [1, 0, 0], some [0], none⟩
    rfl (by decide) (by decide) (by decide) (by decide) (by decide) (by decide)
    (by simp [Numeral.WellFormed]) (by simp [Numeral.WellFormed]) (by simp [Numeral.WellFormed])
    (by unfold Numeral.InRange; rw [v1]; exact f64_finite (by rw [abs_le]; constructor <;> norm_num))
    (by unfold Numeral.InRange; rw [v2]; exact f64_finite (by rw [abs_le]; constructor <;> norm_num))
    (by unfold Numeral.InRange; rw [v3]; exact f64_finite (by rw [abs_le]; constructor <;> norm_num))
    (by decide)
  have e : f64 73.5 = 73.5 := by
    have q := f64_dyadic 147 (-1) (by norm_num) (by norm_num)
    have c : ((147 : ℤ) : ℚ) * 2 ^ (-1 : ℤ) = 73.5 := by norm_num
    rwa [c] at q
  rw [v2, e] at k
  exact k

end Sid
